import Mathlib

/-!
Verification of the strace-to-perfetto converter.

The Go sources are embedded shallowly:
* `events.go`  — line classification (`getType`), numeric conversion
  (`convertTS`, `convertID`) and the k-way `merge`.
* `main.go`    — the scan loop pairing unfinished/detached calls, the
  thread-ancestry reconstruction passes and the metadata/flow synthesis loop.
* `resources.go` — the CPU-utilization computation of the resource monitor.

Go `int` becomes `Int`; Go `uint64` arithmetic is taken modulo `2 ^ 64` where
wrap-around matters; code paths that panic or call `log.Fatal` return `none`.
Go maps become association lists whose insert shadows (and, where the code
deletes keys, erases) earlier bindings.
-/

namespace StracePerfetto

/-! ## Basic string helpers (Go standard library behaviour) -/

/-- Go `strings.HasPrefix s pre` (kernel-computable form of `String.startsWith`). -/
def strStartsWith (s pre : String) : Bool := pre.data.isPrefixOf s.data

/-- ASCII whitespace as recognized by Go `strings.TrimSpace`. -/
def isSpaceChar (c : Char) : Bool :=
  c = ' ' || c = '\t' || c = '\n' || c = '\x0b' || c = '\x0c' || c = '\r'

/-- Go `strings.TrimSpace`: strip leading and trailing whitespace. -/
def trimSpace (s : String) : String :=
  String.mk (((s.data.dropWhile isSpaceChar).reverse.dropWhile isSpaceChar).reverse)

/-- Go `strings.Contains s pat`: `pat` occurs as a contiguous substring of `s`. -/
def containsSub (s pat : String) : Bool :=
  s.data.tails.any (fun t => pat.data.isPrefixOf t)

/-- Go `strings.Split s sep` for a one-character separator, on the character list. -/
def splitOnChar (sep : Char) : List Char → List (List Char)
  | [] => [[]]
  | c :: t =>
    let r := splitOnChar sep t
    if c = sep then [] :: r
    else
      match r with
      | [] => [[c]]
      | h :: t1 => (c :: h) :: t1

/-- Decimal value of a digit string, accumulated left to right. -/
def digitsVal (l : List Char) : Nat :=
  l.foldl (fun a c => a * 10 + (c.toNat - 48)) 0

/-- Go `strconv.Atoi` on a character list: an optional sign followed by one or
more decimal digits, rejected when empty, when a non-digit appears, or when the
value falls outside the signed 64-bit range.  `none` models the returned error. -/
def atoiChars (cs : List Char) : Option Int :=
  match cs with
  | [] => none
  | c :: t =>
    let sign : Int := if c = '-' then -1 else 1
    let ds := if c = '-' || c = '+' then t else c :: t
    if ds.isEmpty then none
    else if ds.all Char.isDigit then
      let n : Int := sign * (digitsVal ds : Int)
      if -(2 ^ 63) ≤ n ∧ n < 2 ^ 63 then some n else none
    else none

/-- Go `strconv.Atoi` on a `String`. -/
def atoi (s : String) : Option Int := atoiChars s.data

/-! ## The `Event` data model (`events.go`, `Event` and `Args` structs) -/

/-- The `Args` payload of an `Event` (`events.go`).  The `Data map[string]any`
field is never written by the converter and is omitted from the model. -/
structure Args where
  name : String := ""
  cpu : ℚ := 0
  memory : Nat := 0
  first : String := ""
  second : String := ""
  returnValue : String := ""
  detachedDur : Int := 0
deriving DecidableEq

/-- The universal `Event` record (`events.go`).  `scope` is the `Scope` field
set by `main.go` for global instant events (its declaration lives outside the
provided `events.go` listing).  Flow identifiers (`Id uint64`) only ever count
upward from zero here, so `Nat` is an exact model. -/
structure Event where
  fullTrace : String := ""
  name : String := ""
  cat : String := ""
  ph : String := ""
  pid : Int := 0
  tid : Int := 0
  ts : Int := 0
  dur : Int := 0
  id : Nat := 0
  scope : String := ""
  args : Args := {}
deriving DecidableEq

/-! ## Regular-expression engine

All seven patterns in `events.go` are anchored with `^`, so Go's
`MatchString` asks whether some prefix of the line belongs to the pattern's
language.  The language of each pattern is embedded as a regular expression
term and decided with Brzozowski derivatives; capture groups are not needed
for classification. -/

/-- Regular expressions over characters; `cls` is a character class. -/
inductive Re where
  | emp : Re
  | eps : Re
  | cls : (Char → Bool) → Re
  | seq : Re → Re → Re
  | alt : Re → Re → Re
  | star : Re → Re

/-- Single literal character. -/
def chr (c : Char) : Re := Re.cls (fun x => x = c)

/-- Sequence of a list of regular expressions. -/
def reCat (l : List Re) : Re := l.foldr Re.seq Re.eps

/-- Literal string. -/
def strRe (s : String) : Re := reCat (s.data.map chr)

/-- `r+`. -/
def rePlus (r : Re) : Re := Re.seq r (Re.star r)

/-- Whether the empty string belongs to the language. -/
def nullable : Re → Bool
  | Re.emp => false
  | Re.eps => true
  | Re.cls _ => false
  | Re.seq a b => nullable a && nullable b
  | Re.alt a b => nullable a || nullable b
  | Re.star _ => true

/-- Smart alternation, pruning the empty language. -/
def altS : Re → Re → Re
  | Re.emp, b => b
  | a, Re.emp => a
  | a, b => Re.alt a b

/-- Smart sequencing, pruning the empty language and the empty string. -/
def seqS : Re → Re → Re
  | Re.emp, _ => Re.emp
  | _, Re.emp => Re.emp
  | Re.eps, b => b
  | a, Re.eps => a
  | a, b => Re.seq a b

/-- Brzozowski derivative. -/
def deriv : Re → Char → Re
  | Re.emp, _ => Re.emp
  | Re.eps, _ => Re.emp
  | Re.cls p, c => if p c then Re.eps else Re.emp
  | Re.seq a b, c =>
    if nullable a then altS (seqS (deriv a c) b) (deriv b c)
    else seqS (deriv a c) b
  | Re.alt a b, c => altS (deriv a c) (deriv b c)
  | Re.star a, c => seqS (deriv a c) (Re.star a)

/-- Does some prefix of `cs` belong to the language of `r`?  This is
`MatchString` for a `^`-anchored pattern. -/
def matchStart : Re → List Char → Bool
  | r, [] => nullable r
  | r, c :: cs => nullable r || matchStart (deriv r c) cs

/-- Go `regexp.MatchString` for the anchored patterns of `events.go`. -/
def matchString (r : Re) (s : String) : Bool := matchStart r s.data

/-- Character class `\d`. -/
def reDigit : Re := Re.cls Char.isDigit

/-- Character class `\w` (ASCII word characters, as in Go's regexp). -/
def reWord : Re := Re.cls (fun c => c.isAlphanum || c = '_')

/-- Character class `\s` (Go regexp whitespace). -/
def reSpace : Re := Re.cls (fun c =>
  c = ' ' || c = '\t' || c = '\n' || c = '\x0c' || c = '\r')

/-- Character class `.` (any character but newline). -/
def reAny : Re := Re.cls (fun c => c ≠ '\n')

/-- Pattern for a fractional timestamp, the common part of every line shape. -/
def reTsPart : Re := reCat [rePlus reDigit, chr '.', rePlus reDigit]

/-- Pattern source: `(\d+) +(\d+\.\d+) +(\w+)+((?:\(\)|\(.+\))) +\= (.+) +<(.+)>`. -/
def regexpSuccessful : Re := reCat [
  rePlus reDigit, rePlus (chr ' '),
  reTsPart, rePlus (chr ' '),
  rePlus (rePlus reWord),
  Re.alt (reCat [chr '(', chr ')']) (reCat [chr '(', rePlus reAny, chr ')']),
  rePlus (chr ' '), chr '=', chr ' ',
  rePlus reAny, rePlus (chr ' '), chr '<', rePlus reAny, chr '>']

/-- Pattern source: `(\d+) +(\d+\.\d+) +(\w+)+((?:\(\)|\(.+\))) +\= (\-.+) +<(.+)>`. -/
def regexpFailed : Re := reCat [
  rePlus reDigit, rePlus (chr ' '),
  reTsPart, rePlus (chr ' '),
  rePlus (rePlus reWord),
  Re.alt (reCat [chr '(', chr ')']) (reCat [chr '(', rePlus reAny, chr ')']),
  rePlus (chr ' '), chr '=', chr ' ', chr '-',
  rePlus reAny, rePlus (chr ' '), chr '<', rePlus reAny, chr '>']

/-- Pattern source: `(\d+) +(\d+\.\d+) +(\w+)+(.+)<unfinished ...>`.  The three
dots after `<unfinished ` are unescaped, hence any-character metacharacters. -/
def regexpUnfinished : Re := reCat [
  rePlus reDigit, rePlus (chr ' '),
  reTsPart, rePlus (chr ' '),
  rePlus (rePlus reWord),
  rePlus reAny, strRe "<unfinished ", reAny, reAny, reAny, chr '>']

/-- Pattern source: `(\d+) +(\d+\.\d+) <... +(\w+) resumed>+((?:.|.+\))) +\= (.+) +<(.+)>`.
The three dots after `<` are unescaped, hence any-character metacharacters. -/
def regexpDetached : Re := reCat [
  rePlus reDigit, rePlus (chr ' '),
  reTsPart, chr ' ',
  chr '<', reAny, reAny, reAny, rePlus (chr ' '),
  rePlus reWord, chr ' ', strRe "resumed", rePlus (chr '>'),
  Re.alt reAny (reCat [rePlus reAny, chr ')']),
  rePlus (chr ' '), chr '=', chr ' ',
  rePlus reAny, rePlus (chr ' '), chr '<', rePlus reAny, chr '>']

/-- Pattern source: `(\d+) +(\d+\.\d+) +(\+\+\+\s+(.*)\s+\+\+\+)`. -/
def regexpExited : Re := reCat [
  rePlus reDigit, rePlus (chr ' '),
  reTsPart, rePlus (chr ' '),
  chr '+', chr '+', chr '+', rePlus reSpace,
  Re.star reAny, rePlus reSpace, chr '+', chr '+', chr '+']

/-- `Event.getType` (`events.go`): the category of a raw line, testing the
grammars in source order with the first match winning. -/
def getType (line : String) : String :=
  if matchString regexpFailed line then "failed"
  else if matchString regexpSuccessful line then "successful"
  else if matchString regexpUnfinished line then "unfinished"
  else if matchString regexpDetached line then "detached"
  else if matchString regexpExited line then "lifetime"
  else "other"

/-! ## Numeric conversions (`events.go`) -/

/-- `convertID` (`events.go`): `strconv.Atoi`, where `none` models the
`log.Fatal` abort on a parse error. -/
def convertID (id : String) : Option Int := atoi id

/-- `convertTS` (`events.go`): split on `"."`; a dot-less field yields `0`;
otherwise the first two digit groups are concatenated and parsed, `none`
modelling the `log.Fatal` abort on a parse error. -/
def convertTS (ts : String) : Option Int :=
  match splitOnChar '.' ts.data with
  | [_] => some 0
  | a :: b :: _ => atoiChars (a ++ b)
  | [] => none

/-! ## Generic association-list maps (Go `map` values used by `main.go`) -/

/-- First-match lookup in an association list. -/
def aLookup {α β : Type} [DecidableEq α] : List (α × β) → α → Option β
  | [], _ => none
  | (a, b) :: t, k => if k = a then some b else aLookup t k

/-- Insertion; together with first-match lookup this shadows earlier bindings,
matching Go map assignment for maps that are never deleted from. -/
def aInsert {α β : Type} (k : α) (v : β) (m : List (α × β)) : List (α × β) :=
  (k, v) :: m

/-- Removal of a key, matching Go `delete`. -/
def aErase {α β : Type} [DecidableEq α] (k : α) : List (α × β) → List (α × β)
  | [] => []
  | kv :: t => if kv.1 = k then aErase k t else kv :: aErase k t

/-- Overwriting insertion for tables that are also deleted from
(`preserved` in `main.go`): the stored keys stay unique. -/
def aPut {α β : Type} [DecidableEq α] (k : α) (v : β) (m : List (α × β)) : List (α × β) :=
  (k, v) :: aErase k m

/-- The `processThreads` map: `threadId → owning processId`. -/
abbrev PT := List (Int × Int)

/-! ## The scan loop of `main.go` (lines 85–126)

Each raw line becomes a classified `Event`; the loop synthesizes a lifetime
begin event the first time a thread id appears, stores "unfinished" events in
the `preserved` table, merges "detached" events with their stored partner and
emits everything else.  `none` models the nil-pointer dereference that aborts
the run when a "detached" event has no preserved partner. -/

/-- The key of the `preserved` table: `strconv.Itoa(e.Pid) + e.Name`. -/
def eventKey (e : Event) : String := toString e.pid ++ e.name

/-- The synthesized lifetime-begin event inserted when a thread id first appears. -/
def lifetimeOf (e : Event) : Event :=
  { name := "lifetime", cat := "lifetime", ph := "B",
    ts := e.ts, pid := e.pid, tid := e.tid }

/-- State of the scan loop: the `liveThreads` set, the `preserved` table and
the `syscallEvents` accumulated so far. -/
structure ScanState where
  liveThreads : List Int := []
  preserved : List (String × Event) := []
  out : List Event := []
deriving DecidableEq

/-- The lifetime-synthesis prologue of each loop iteration. -/
def lifetimeAdj (s : ScanState) (e : Event) : ScanState :=
  if s.liveThreads.contains e.tid then s
  else { s with out := s.out ++ [lifetimeOf e], liveThreads := e.tid :: s.liveThreads }

/-- Merging a "detached" event `e` with its preserved "unfinished" partner `p`:
the duration becomes `e.Ts - p.Ts`, the timestamp becomes `p.Ts` and the stored
first-argument text is carried over. -/
def mergeDetached (e p : Event) : Event :=
  { e with dur := e.ts - p.ts, ts := p.ts, args := { e.args with first := p.args.first } }

/-- One iteration of the scan loop.  `none` models the nil-pointer panic on a
"detached" event whose key is absent from `preserved`. -/
def scanStep (s : ScanState) (e : Event) : Option ScanState :=
  if e.cat = "other" then some s
  else
    let s1 := lifetimeAdj s e
    if e.cat = "unfinished" then
      some { s1 with preserved := aPut (eventKey e) e s1.preserved }
    else if e.cat = "detached" then
      match aLookup s1.preserved (eventKey e) with
      | none => none
      | some p =>
        some { s1 with out := s1.out ++ [mergeDetached e p],
                       preserved := aErase (eventKey e) s1.preserved }
    else some { s1 with out := s1.out ++ [e] }

/-- The scan loop over the whole classified line list. -/
def scanList (s : ScanState) : List Event → Option ScanState
  | [] => some s
  | e :: es =>
    match scanStep s e with
    | none => none
    | some s1 => scanList s1 es

/-- Initial scan state. -/
def initScanState : ScanState := {}

/-- The flush after the loop: remaining preserved entries become instant events. -/
def flushPreserved (s : ScanState) : List Event :=
  s.preserved.map (fun kv => { kv.2 with ph := "i" })

/-- The full `syscallEvents` list handed to the ancestry passes. -/
def finalScanEvents (s : ScanState) : List Event :=
  s.out ++ flushPreserved s

/-! ## Ancestry reconstruction (`main.go`, lines 128–166) -/

/-- Seeding of `processThreads` from the first event
(`processThreads[syscallEvents[0].Tid] = syscallEvents[0].Pid`); `none` models
the index-out-of-range panic on an empty event list. -/
def seedProcessThreads : List Event → Option PT
  | [] => none
  | e :: _ => some (aInsert e.tid e.pid [])

/-- Is the event a process/thread-creation call
(`e.Name == "fork" || strings.HasPrefix(e.Name, "clone")`)? -/
def isCreation (name : String) : Bool := name == "fork" || strStartsWith name "clone"

/-- Rewrite an event's process id from the map when its thread id is known. -/
def rewritePid (pt : PT) (e : Event) : Event :=
  match aLookup pt e.tid with
  | some pid => { e with pid := pid }
  | none => e

/-- The map update performed at a creation event (after its own pid rewrite):
a parseable return value maps the new id either to the creator's process id
(shared address space) or to itself. -/
def ancestryUpdate (pt : PT) (e : Event) : PT :=
  if isCreation e.name then
    match atoi e.args.returnValue with
    | some childTid =>
      if containsSub e.args.first "CLONE_THREAD" then aInsert childTid e.pid pt
      else aInsert childTid childTid pt
    | none => pt
  else pt

/-- One iteration of an ancestry pass. -/
def ancestryStep (pt : PT) (e : Event) : PT × Event :=
  let e1 := rewritePid pt e
  (ancestryUpdate pt e1, e1)

/-- One full linear pass, returning the final map and the rewritten events. -/
def ancestryPass (pt : PT) : List Event → PT × List Event
  | [] => (pt, [])
  | e :: es =>
    let r1 := ancestryStep pt e
    let r2 := ancestryPass r1.1 es
    (r2.1, r1.2 :: r2.2)

/-- The two passes of `main.go`, sharing one `processThreads` map. -/
def reconstructAncestry (pt : PT) (es : List Event) : PT × List Event :=
  let r1 := ancestryPass pt es
  ancestryPass r1.1 r1.2

/-! ## Metadata and flow synthesis (`main.go`, lines 168–259) -/

/-- Capture of `regexpPrctl` = `^\(PR_SET_NAME, \"([^"]+)\"`: the thread name
between the quotes, when the argument text has that shape. -/
def prctlExtract (s : String) : Option String :=
  if strStartsWith s "(PR_SET_NAME, \"" then
    let rest := s.data.drop 15
    let name := rest.takeWhile (fun c => c ≠ '"')
    if name.isEmpty || name.length = rest.length then none
    else some (String.mk name)
  else none

/-- Go `path.Base`. -/
def pathBase (s : String) : String :=
  if s.data.isEmpty then "."
  else
    let cs := s.data.reverse.dropWhile (fun c => c = '/')
    if cs.isEmpty then "/"
    else String.mk ((cs.takeWhile (fun c => c ≠ '/')).reverse)

/-- Captures of `regexpExecve` = `^\(\"([^"]+)\", \[\"([^"]+)\"(\.\.\.)?.*`:
the full path, the first argv entry, and whether a `...` truncation marker
follows. -/
def execveExtract (s : String) : Option (String × String × Bool) :=
  if strStartsWith s "(\"" then
    let r1 := s.data.drop 2
    let p1 := r1.takeWhile (fun c => c ≠ '"')
    if p1.isEmpty || p1.length = r1.length then none
    else
      let r2 := r1.drop (p1.length + 1)
      if strStartsWith (String.mk r2) ", [\"" then
        let r3 := r2.drop 4
        let p2 := r3.takeWhile (fun c => c ≠ '"')
        if p2.isEmpty || p2.length = r3.length then none
        else
          let r4 := r3.drop (p2.length + 1)
          some (String.mk p1, String.mk p2, strStartsWith (String.mk r4) "...")
      else none
  else none

/-- Index of the first occurrence of `pat` as a contiguous sublist (helper for
the spec-modelled global-event marker). -/
def findSub (pat : List Char) : List Char → Option Nat
  | [] => if pat.isEmpty then some 0 else none
  | c :: t => if pat.isPrefixOf (c :: t) then some 0 else (findSub pat t).map (· + 1)

/-- Modelled from the spec: `regexpGlobalEvent` is declared outside the
provided source files.  Per the spec a `write` call whose argument text
carries a global-event marker `=== label ===` yields the label as its
capture; the text between the first two `===` markers is extracted. -/
def globalEventExtract (s : String) : Option String :=
  match findSub "===".data s.data with
  | none => none
  | some i =>
    let rest := s.data.drop (i + 3)
    match findSub "===".data rest with
    | none => none
    | some j => some (String.mk (rest.take j))

/-- State of the metadata loop: the two name maps, the synthesized metadata
events and the flow-identifier counter (`nextFlowId`, starting at zero). -/
structure MetaState where
  processNames : List (Int × String) := []
  threadNames : List (Int × String) := []
  metadataEvents : List Event := []
  nextFlowId : Nat := 0
deriving DecidableEq

/-- The `prctl` branch: record the thread's display name. -/
def metaPrctl (st : MetaState) (e : Event) : MetaState :=
  if e.name == "prctl" && containsSub e.args.first "PR_SET_NAME" then
    let threadName := match prctlExtract e.args.first with
      | some n => n
      | none => e.args.first
    { st with threadNames := aInsert e.tid threadName st.threadNames }
  else st

/-- The `execve` branch: record process and thread display names. -/
def metaExecve (st : MetaState) (e : Event) : MetaState :=
  if e.name == "execve" then
    let processName := match execveExtract e.args.first with
      | some r => if r.2.2 then pathBase r.1 else r.2.1
      | none => e.args.first
    { st with processNames := aInsert e.pid processName st.processNames,
              threadNames := aInsert e.tid processName st.threadNames }
  else st

/-- The `write` branch: synthesize a global instant event when the argument
text carries a global-event marker. -/
def metaWrite (st : MetaState) (e : Event) : MetaState :=
  if e.name == "write" then
    match globalEventExtract e.args.first with
    | some label =>
      { st with metadataEvents := st.metadataEvents ++
          [{ name := trimSpace label, cat := "event", ph := "i",
             pid := e.pid, tid := e.tid, scope := "g", ts := e.ts }] }
    | none => st
  else st

/-- The creation branch: synthesize the FlowStart/FlowEnd pair one microsecond
after the creation call, propagate inherited names and advance `nextFlowId` —
all guarded on the return value parsing as the new id. -/
def metaCreation (st : MetaState) (e : Event) : MetaState :=
  if isCreation e.name then
    match atoi e.args.returnValue with
    | some childTid =>
      let sEvt : Event :=
        { name := e.name, cat := "clone", ph := "s", pid := e.pid, tid := e.tid,
          ts := e.ts + 1, id := st.nextFlowId }
      let st1 := { st with metadataEvents := st.metadataEvents ++ [sEvt] }
      let inherited := (aLookup st1.threadNames e.tid).getD ""
      let st2 := { st1 with threadNames := aInsert childTid inherited st1.threadNames }
      let st3 :=
        if containsSub e.args.first "CLONE_THREAD" then
          let fEvt : Event :=
            { name := e.name, cat := "clone", ph := "f", pid := e.pid, tid := childTid,
              ts := e.ts + 1, id := st2.nextFlowId }
          { st2 with metadataEvents := st2.metadataEvents ++ [fEvt] }
        else
          let fEvt : Event :=
            { name := e.name, cat := "clone", ph := "f", pid := childTid, tid := childTid,
              ts := e.ts + 1, id := st2.nextFlowId }
          let inheritedP := (aLookup st2.processNames e.pid).getD ""
          { st2 with metadataEvents := st2.metadataEvents ++ [fEvt],
                     processNames := aInsert childTid inheritedP st2.processNames }
      { st3 with nextFlowId := st3.nextFlowId + 1 }
    | none => st
  else st

/-- One iteration of the metadata loop: rewrite the pid once more from the
(now fixed) `processThreads` map, then run the four branches in source order. -/
def metaStep (pt : PT) (st : MetaState) (e0 : Event) : MetaState × Event :=
  let e := rewritePid pt e0
  (metaCreation (metaWrite (metaExecve (metaPrctl st e) e) e) e, e)

/-- The metadata loop over the whole event list. -/
def metaRun (pt : PT) (st : MetaState) : List Event → MetaState × List Event
  | [] => (st, [])
  | e :: es =>
    let r1 := metaStep pt st e
    let r2 := metaRun pt r1.1 es
    (r2.1, r1.2 :: r2.2)

/-- Initial metadata state: `nextFlowId` starts at zero. -/
def initMetaState : MetaState := {}

/-- Is this a synthesized flow event (category `"clone"`)? -/
def isFlowEvent (e : Event) : Bool := e.cat == "clone"

/-! ## Serialization (`events.go`, struct tags of `Event`)

`encoding/json` emits the exported fields in declaration order; `dur` and
`id` carry `omitempty` and disappear when zero.  The unexported `fullTrace`
is never serialized. -/

/-- The JSON keys present in the serialized form of an event. -/
def serializedKeys (e : Event) : List String :=
  ["name", "cat", "ph", "pid", "tid", "ts"]
    ++ (if e.dur = 0 then [] else ["dur"])
    ++ (if e.id = 0 then [] else ["id"])
    ++ ["args"]

/-! ## The k-way merge (`events.go`, lines 157–193) -/

/-- Total number of events across the lists; this is the `l` the Go code
accumulates while removing empty lists. -/
def totalLen (ls : List (List Event)) : Nat := (ls.map List.length).sum

/-- The empty-list removal prologue of `merge`. -/
def dropEmpties (ls : List (List Event)) : List (List Event) :=
  ls.filter (fun l => !l.isEmpty)

/-- The inner selection loop over `events[1:]`: keep the running best
`(eventIndex, firstEvent)` and replace it only on a strictly smaller head
timestamp, so ties favour the earlier list.  `none` models the panic of
indexing an empty member list. -/
def selectLoop : Nat × Event → Nat → List (List Event) → Option (Nat × Event)
  | acc, _, [] => some acc
  | _, _, [] :: _ => none
  | acc, i, (h :: _) :: rest =>
    if acc.2.ts ≤ h.ts then selectLoop acc (i + 1) rest
    else selectLoop (i, h) (i + 1) rest

/-- Selection of the next event: index and head of the chosen list. -/
def select : List (List Event) → Option (Nat × Event)
  | [] => none
  | [] :: _ => none
  | (h :: _) :: rest => selectLoop (0, h) 1 rest

/-- Removal of the consumed head: a singleton list is removed entirely,
otherwise the chosen list is beheaded in place. -/
def popAt : Nat → List (List Event) → List (List Event)
  | _, [] => []
  | 0, l :: rest =>
    match l with
    | [] => l :: rest
    | [_] => rest
    | _ :: t => t :: rest
  | i + 1, l :: rest => l :: popAt i rest

/-- The main merge loop.  The fuel is the element count `l` computed by the
Go code; every iteration consumes exactly one event, so this fuel makes the
recursion equal to the Go `for len(events) > 0` loop. -/
def mergeLoop : Nat → List (List Event) → Option (List Event)
  | _, [] => some []
  | 0, _ :: _ => none
  | fuel + 1, ls =>
    match select ls with
    | none => none
    | some r => (mergeLoop fuel (popAt r.1 ls)).map (r.2 :: ·)

/-- `merge` (`events.go`): drop empty input lists, then repeatedly emit the
lowest-timestamp head. -/
def merge (events : List (List Event)) : Option (List Event) :=
  if events.isEmpty then some []
  else mergeLoop (totalLen (dropEmpties events)) (dropEmpties events)

/-- Non-decreasing timestamps. -/
def sortedTs (l : List Event) : Prop :=
  List.Pairwise (fun a b => a.ts ≤ b.ts) l

instance (l : List Event) : Decidable (sortedTs l) := by
  unfold sortedTs; infer_instance

/-! ## Resource monitor (`resources.go`) -/

/-- Unsigned 64-bit subtraction `a - b` with wrap-around, as in
`cpuUsageUsec - r.lastCPUUsageUsec`. -/
def usub64 (a b : Nat) : Nat := (a % 2 ^ 64 + 2 ^ 64 - b % 2 ^ 64) % 2 ^ 64

/-- The allotted core count: `float64(quotaMs) / float64(timesliceMs)`
from the cgroup `cpu.max` quota/period pair, modelled over `ℚ`. -/
def vCPUsOf (quotaMs timesliceMs : Nat) : ℚ := (quotaMs : ℚ) / (timesliceMs : ℚ)

/-- The CPU utilization computed each tick of `ResourceMonitor.Run`:
`100 * float64(cpuUsageUsec - lastCPUUsageUsec) / vCPUs / float64(timeDelta)`,
modelled over `ℚ` (all claimed instances are exact in binary64). -/
def cpuUsage (cpuUsageUsec lastCPUUsageUsec : Nat) (vCPUs : ℚ) (timeDelta : Int) : ℚ :=
  100 * (usub64 cpuUsageUsec lastCPUUsageUsec : ℚ) / vCPUs / (timeDelta : ℚ)

/-- The CPU-utilization formula as the spec words it:
`100 * (Δcpu_usage) / allotted_cores / Δwall_time` over exact numbers. -/
def specCPUUtilization (curr prev allottedCores deltaWall : ℚ) : ℚ :=
  100 * (curr - prev) / allottedCores / deltaWall

/-! ## Claim C4: classification totality and priority -/

/-- C4: line classification is total and deterministic — `getType` assigns every
line exactly one of the six categories; the grammars are tested in priority
order with the first match winning, so a line matching both the failed and the
successful grammar (such as the concrete line below, since every failed line
also matches the successful grammar) is classified `"failed"`; and a line
matching none of the grammars is classified `"other"`. -/
theorem getType_total_and_prioritized (s : String) :
    (getType s = "failed" ∨ getType s = "successful" ∨ getType s = "unfinished" ∨
      getType s = "detached" ∨ getType s = "lifetime" ∨ getType s = "other") ∧
    (matchString regexpFailed s = true → getType s = "failed") ∧
    (matchString regexpFailed s = false ∧ matchString regexpSuccessful s = false ∧
      matchString regexpUnfinished s = false ∧ matchString regexpDetached s = false ∧
      matchString regexpExited s = false → getType s = "other") ∧
    (matchString regexpFailed "1 0.1 a() = -1 <2>" = true ∧
      matchString regexpSuccessful "1 0.1 a() = -1 <2>" = true ∧
      getType "1 0.1 a() = -1 <2>" = "failed") := by
  refine ⟨?_, ?_, ?_, by decide⟩ <;>
    cases hf : matchString regexpFailed s <;>
    cases hs : matchString regexpSuccessful s <;>
    cases hu : matchString regexpUnfinished s <;>
    cases hd : matchString regexpDetached s <;>
    cases he : matchString regexpExited s <;>
    simp_all [getType]

/-! ## Claim C5: microsecond conversion by digit-group concatenation -/

theorem digit_ne_of_not_digit (c : Char) (h : c.isDigit = true) (d : Char)
    (hd : d.isDigit = false) : c ≠ d := by
  intro he; subst he; rw [h] at hd; exact absurd hd (by simp)

theorem splitOnChar_no_sep (sep : Char) (b : List Char) (hb : ∀ c ∈ b, c ≠ sep) :
    splitOnChar sep b = [b] := by
  induction b with
  | nil => rfl
  | cons c t ih =>
    have hc : c ≠ sep := hb c (List.mem_cons_self c t)
    have ht : splitOnChar sep t = [t] := ih (fun x hx => hb x (List.mem_cons_of_mem c hx))
    simp [splitOnChar, hc, ht]

theorem splitOnChar_append (sep : Char) (a b : List Char) (ha : ∀ c ∈ a, c ≠ sep) :
    splitOnChar sep (a ++ sep :: b) = a :: splitOnChar sep b := by
  induction a with
  | nil => simp [splitOnChar]
  | cons c t ih =>
    have hc : c ≠ sep := ha c (List.mem_cons_self c t)
    have ht := ih (fun x hx => ha x (List.mem_cons_of_mem c hx))
    simp [splitOnChar, hc, ht]

theorem atoiChars_digits (ds : List Char) (h1 : ds ≠ [])
    (h2 : ds.all Char.isDigit = true) (h3 : (digitsVal ds : Int) < 2 ^ 63) :
    atoiChars ds = some (digitsVal ds) := by
  cases ds with
  | nil => exact absurd rfl h1
  | cons c t =>
    have hcd : c.isDigit = true := List.all_eq_true.mp h2 c (List.mem_cons_self c t)
    have hcm : ¬(c = '-') := digit_ne_of_not_digit c hcd '-' (by decide)
    have hcp : ¬(c = '+') := digit_ne_of_not_digit c hcd '+' (by decide)
    simp [atoiChars, hcm, hcp, h2]
    omega

theorem convert_concatenates_and_parse_failure_fatal :
    (∀ a b : List Char, a ≠ [] → b ≠ [] →
      a.all Char.isDigit = true → b.all Char.isDigit = true →
      (digitsVal (a ++ b) : Int) < 2 ^ 63 →
      convertTS (String.mk (a ++ '.' :: b)) = some (digitsVal (a ++ b))) ∧
    convertTS "0.000020" = some 20 ∧
    (∀ (s : String) (x y : List Char) (r : List (List Char)),
      splitOnChar '.' s.data = x :: y :: r → atoiChars (x ++ y) = none →
      convertTS s = none) ∧
    (∀ s : String, atoi s = none → convertID s = none) := by
  refine ⟨?_, by decide, ?_, ?_⟩
  · intro a b ha hb hda hdb hlt
    have hadot : ∀ c ∈ a, c ≠ '.' := fun c hc =>
      digit_ne_of_not_digit c (List.all_eq_true.mp hda c hc) '.' (by decide)
    have hbdot : ∀ c ∈ b, c ≠ '.' := fun c hc =>
      digit_ne_of_not_digit c (List.all_eq_true.mp hdb c hc) '.' (by decide)
    have hsplit : splitOnChar '.' (a ++ '.' :: b) = a :: [b] := by
      rw [splitOnChar_append '.' a b hadot, splitOnChar_no_sep '.' b hbdot]
    have hall : (a ++ b).all Char.isDigit = true := by
      rw [List.all_append, hda, hdb]; rfl
    have hne : a ++ b ≠ [] := by
      intro h; exact ha (List.append_eq_nil.mp h).1
    unfold convertTS
    rw [show (String.mk (a ++ '.' :: b)).data = a ++ '.' :: b from rfl, hsplit]
    exact atoiChars_digits (a ++ b) hne hall hlt
  · intro s x y r hsplit hfail
    unfold convertTS
    rw [hsplit]
    exact hfail
  · intro s h
    exact h

theorem convert_concatenates_witness :
    (("0".data ≠ [] ∧ "000020".data ≠ []) ∧
      ("0".data.all Char.isDigit = true ∧ "000020".data.all Char.isDigit = true ∧
        (digitsVal ("0".data ++ "000020".data) : Int) < 2 ^ 63)) ∧
    convertTS (String.mk ("0".data ++ '.' :: "000020".data)) =
      some (digitsVal ("0".data ++ "000020".data)) :=
  ⟨⟨⟨by decide, by decide⟩, by decide, by decide, by decide⟩,
    convert_concatenates_and_parse_failure_fatal.1 "0".data "000020".data
      (by decide) (by decide) (by decide) (by decide) (by decide)⟩

/-! ## Claim C7: a detached event without a preserved partner aborts the run -/

theorem lifetimeAdj_preserved (s : ScanState) (e : Event) :
    (lifetimeAdj s e).preserved = s.preserved := by
  unfold lifetimeAdj; split <;> rfl

/-- C7: processing a "detached" event whose `(processId, syscall-name)` key has
no preserved "unfinished" entry is fatal — `scanStep` returns `none`, the model
of the nil-pointer dereference on the missing-key lookup, rather than skipping
the event or demoting it. -/
theorem detached_missing_key_aborts (s : ScanState) (e : Event)
    (hc : e.cat = "detached")
    (hm : aLookup s.preserved (eventKey e) = none) :
    scanStep s e = none := by
  unfold scanStep
  rw [hc]
  have hp : aLookup (lifetimeAdj s e).preserved (eventKey e) = none := by
    rw [lifetimeAdj_preserved]; exact hm
  simp [hp]

/-- C7 witness: a detached event against the empty pending table. -/
theorem detached_missing_key_aborts_witness :
    (({ cat := "detached", name := "futex", pid := 7 } : Event).cat = "detached" ∧
      aLookup initScanState.preserved
        (eventKey { cat := "detached", name := "futex", pid := 7 }) = none) ∧
    scanStep initScanState { cat := "detached", name := "futex", pid := 7 } = none :=
  ⟨⟨rfl, rfl⟩, detached_missing_key_aborts initScanState
    { cat := "detached", name := "futex", pid := 7 } rfl rfl⟩

/-! ## Claim C9: an event-free scan leaves nothing to seed and the run crashes -/

/-- C9: when every scanned line is classified `"other"` (in particular when the
log is empty), the scan emits no events and preserves nothing, so the
`syscallEvents` list is empty and seeding the thread-to-process map from its
first element — `seedProcessThreads` — is the out-of-range access `none`: the
run crashes instead of producing an empty trace. -/
theorem other_only_scan_crashes (es : List Event) (h : ∀ e ∈ es, e.cat = "other") :
    scanList initScanState es = some initScanState ∧
    finalScanEvents initScanState = [] ∧
    seedProcessThreads (finalScanEvents initScanState) = none := by
  refine ⟨?_, rfl, rfl⟩
  induction es with
  | nil => rfl
  | cons e t ih =>
    have hc : e.cat = "other" := h e (List.mem_cons_self e t)
    have ht := ih (fun x hx => h x (List.mem_cons_of_mem e hx))
    simp [scanList, scanStep, hc, ht]

/-- C9 witness: the empty log. -/
theorem other_only_scan_crashes_witness :
    (∀ e ∈ ([] : List Event), e.cat = "other") ∧
    (scanList initScanState [] = some initScanState ∧
      finalScanEvents initScanState = [] ∧
      seedProcessThreads (finalScanEvents initScanState) = none) :=
  ⟨by simp, other_only_scan_crashes [] (by simp)⟩

/-! ## Claim C8: the CPU-utilization formula -/

theorem usub64_of_le (a b : Nat) (h1 : b ≤ a) (h2 : a < 2 ^ 64) :
    usub64 a b = a - b := by
  unfold usub64
  have hb : b < 2 ^ 64 := lt_of_le_of_lt h1 h2
  rw [Nat.mod_eq_of_lt h2, Nat.mod_eq_of_lt hb]
  have he : a + 2 ^ 64 - b = a - b + 2 ^ 64 := by omega
  rw [he, Nat.add_mod_right, Nat.mod_eq_of_lt (by omega)]

/-- C8: each sample's CPU utilization is
`100 * (curr - prev) / allotted_cores / Δwall` — the code's `uint64`
subtraction agrees with the spec's formula whenever the cumulative counter does
not wrap — and the concrete readings 1000 then 1500 taken 500 microseconds
apart with 2 allotted cores (quota 200000 over period 100000) yield 50. -/
theorem cpu_utilization_formula (curr prev : Nat) (v : ℚ) (dt : Int)
    (h1 : prev ≤ curr) (h2 : curr < 2 ^ 64) :
    cpuUsage curr prev v dt =
      specCPUUtilization (curr : ℚ) (prev : ℚ) v (dt : ℚ) ∧
    cpuUsage 1500 1000 (vCPUsOf 200000 100000) 500 = 50 := by
  constructor
  · unfold cpuUsage specCPUUtilization
    rw [usub64_of_le curr prev h1 h2]
    rw [Nat.cast_sub h1]
  · show (100 : ℚ) * (usub64 1500 1000 : ℚ) / vCPUsOf 200000 100000 / ((500 : Int) : ℚ) = 50
    norm_num [usub64, vCPUsOf]

/-- C8 witness: the theorem applied at the concrete readings of the claim. -/
theorem cpu_utilization_formula_witness :
    (1000 ≤ 1500 ∧ 1500 < 2 ^ 64) ∧
    (cpuUsage 1500 1000 (vCPUsOf 200000 100000) 500 =
        specCPUUtilization ((1500 : Nat) : ℚ) ((1000 : Nat) : ℚ)
          (vCPUsOf 200000 100000) (((500 : Int)) : ℚ) ∧
      cpuUsage 1500 1000 (vCPUsOf 200000 100000) 500 = 50) :=
  ⟨by decide, cpu_utilization_formula 1500 1000 (vCPUsOf 200000 100000) 500
    (by decide) (by decide)⟩

/-! ## Claim C2: unfinished/detached pairing -/

theorem aLookup_aErase_self {α β : Type} [DecidableEq α] (k : α) (m : List (α × β)) :
    aLookup (aErase k m) k = none := by
  induction m with
  | nil => rfl
  | cons kv t ih =>
    unfold aErase
    by_cases h : kv.1 = k
    · rw [if_pos h]; exact ih
    · rw [if_neg h]
      unfold aLookup
      rw [if_neg (fun he => h he.symm)]
      exact ih

theorem aLookup_cons {α β : Type} [DecidableEq α] (kv : α × β) (t : List (α × β)) (j : α) :
    aLookup (kv :: t) j = if j = kv.1 then some kv.2 else aLookup t j := rfl

theorem aLookup_aErase_ne {α β : Type} [DecidableEq α] (k j : α) (m : List (α × β))
    (h : j ≠ k) : aLookup (aErase k m) j = aLookup m j := by
  induction m with
  | nil => rfl
  | cons kv t ih =>
    unfold aErase
    by_cases hk : kv.1 = k
    · rw [if_pos hk, ih, aLookup_cons, if_neg (fun he => h (he.trans hk))]
    · rw [if_neg hk]
      unfold aLookup
      by_cases hj : j = kv.1
      · rw [if_pos hj, if_pos hj]
      · rw [if_neg hj, if_neg hj]
        exact ih

theorem aLookup_aPut_self {α β : Type} [DecidableEq α] (k : α) (v : β) (m : List (α × β)) :
    aLookup (aPut k v m) k = some v := by
  simp [aPut, aLookup]

theorem aLookup_aPut_ne {α β : Type} [DecidableEq α] (k j : α) (v : β) (m : List (α × β))
    (h : j ≠ k) : aLookup (aPut k v m) j = aLookup m j := by
  simp only [aPut, aLookup, if_neg h]
  exact aLookup_aErase_ne k j m h

theorem lifetimeAdj_out (s : ScanState) (e : Event) :
    (lifetimeAdj s e).out = s.out ∨ (lifetimeAdj s e).out = s.out ++ [lifetimeOf e] := by
  unfold lifetimeAdj; split
  · left; rfl
  · right; rfl

theorem scanStep_unfinished (s : ScanState) (e : Event) (hu : e.cat = "unfinished") :
    scanStep s e =
      some { lifetimeAdj s e with preserved := aPut (eventKey e) e s.preserved } := by
  unfold scanStep
  rw [hu]
  simp [lifetimeAdj_preserved]

theorem scanStep_detached_found (s : ScanState) (e p : Event) (hd : e.cat = "detached")
    (hf : aLookup s.preserved (eventKey e) = some p) :
    scanStep s e =
      some { lifetimeAdj s e with
             out := (lifetimeAdj s e).out ++ [mergeDetached e p],
             preserved := aErase (eventKey e) s.preserved } := by
  unfold scanStep
  rw [hd]
  have hp : aLookup (lifetimeAdj s e).preserved (eventKey e) = some p := by
    rw [lifetimeAdj_preserved]; exact hf
  simp [hp, hf, lifetimeAdj_preserved]

theorem scanStep_preserved_stable (s s1 : ScanState) (e : Event) (k : String)
    (h : scanStep s e = some s1)
    (hk : eventKey e = k → e.cat ≠ "unfinished" ∧ e.cat ≠ "detached") :
    aLookup s1.preserved k = aLookup s.preserved k := by
  by_cases hco : e.cat = "other"
  · unfold scanStep at h
    rw [hco] at h
    simp at h
    rw [← h]
  · by_cases hcu : e.cat = "unfinished"
    · have hne : ¬(eventKey e = k) := fun he => (hk he).1 hcu
      rw [scanStep_unfinished s e hcu] at h
      have h1 : s1 = { lifetimeAdj s e with preserved := aPut (eventKey e) e s.preserved } :=
        (Option.some_injective _ h).symm
      rw [h1]
      exact aLookup_aPut_ne (eventKey e) k e s.preserved (fun he => hne he.symm)
    · by_cases hcd : e.cat = "detached"
      · have hne : ¬(eventKey e = k) := fun he => (hk he).2 hcd
        cases hf : aLookup s.preserved (eventKey e) with
        | none =>
          rw [detached_missing_key_aborts s e hcd hf] at h
          exact absurd h (by simp)
        | some p =>
          rw [scanStep_detached_found s e p hcd hf] at h
          have h1 : s1 = { lifetimeAdj s e with
              out := (lifetimeAdj s e).out ++ [mergeDetached e p],
              preserved := aErase (eventKey e) s.preserved } :=
            (Option.some_injective _ h).symm
          rw [h1]
          exact aLookup_aErase_ne (eventKey e) k s.preserved (fun he => hne he.symm)
      · unfold scanStep at h
        rw [if_neg hco, if_neg hcu, if_neg hcd] at h
        have h1 : s1 = { lifetimeAdj s e with out := (lifetimeAdj s e).out ++ [e] } :=
          (Option.some_injective _ h).symm
        rw [h1]
        show aLookup (lifetimeAdj s e).preserved k = aLookup s.preserved k
        rw [lifetimeAdj_preserved]

theorem scanList_preserved_stable (mid : List Event) (s s2 : ScanState) (k : String)
    (h : scanList s mid = some s2)
    (hmid : ∀ e ∈ mid, eventKey e = k → e.cat ≠ "unfinished" ∧ e.cat ≠ "detached") :
    aLookup s2.preserved k = aLookup s.preserved k := by
  induction mid generalizing s with
  | nil =>
    unfold scanList at h
    have h1 : s2 = s := (Option.some_injective _ h).symm
    rw [h1]
  | cons e t ih =>
    unfold scanList at h
    cases hstep : scanStep s e with
    | none => rw [hstep] at h; exact absurd h (by simp)
    | some s1 =>
      rw [hstep] at h
      have hrest := ih s1 h (fun x hx => hmid x (List.mem_cons_of_mem e hx))
      rw [hrest]
      exact scanStep_preserved_stable s s1 e k hstep
        (hmid e (List.mem_cons_self e t))

/-- C2: for an "unfinished" event `u` later matched by a "detached" event `d`
with the same `(processId, syscall-name)` key (no event in between touching
that key's pending entry), exactly one Complete-phase event is emitted for the
pair: processing `u` emits nothing but possibly a lifetime marker, and
processing `d` appends the single merged event, whose duration is
`d.ts - u.ts`, whose timestamp is `u.ts`, which carries `u`'s stored
first-argument text, and whose key is removed from the pending table. -/
theorem unfinished_detached_pairing
    (s s1 s2 : ScanState) (u d : Event) (mid : List Event)
    (hu : u.cat = "unfinished") (hd : d.cat = "detached") (hph : d.ph = "X")
    (hk : eventKey d = eventKey u)
    (hmid : ∀ e ∈ mid, eventKey e = eventKey u → e.cat ≠ "unfinished" ∧ e.cat ≠ "detached")
    (h1 : scanStep s u = some s1) (h2 : scanList s1 mid = some s2) :
    (s1.out = s.out ∨ s1.out = s.out ++ [lifetimeOf u]) ∧
    ∃ s3, scanStep s2 d = some s3 ∧
      (s3.out = s2.out ++ [mergeDetached d u] ∨
        s3.out = s2.out ++ [lifetimeOf d] ++ [mergeDetached d u]) ∧
      (mergeDetached d u).ph = "X" ∧
      (mergeDetached d u).ts = u.ts ∧
      (mergeDetached d u).dur = d.ts - u.ts ∧
      (mergeDetached d u).args.first = u.args.first ∧
      aLookup s3.preserved (eventKey u) = none := by
  rw [scanStep_unfinished s u hu] at h1
  have hs1 : s1 = { lifetimeAdj s u with preserved := aPut (eventKey u) u s.preserved } :=
    (Option.some_injective _ h1).symm
  have hout1 : s1.out = s.out ∨ s1.out = s.out ++ [lifetimeOf u] := by
    rw [hs1]
    show (lifetimeAdj s u).out = s.out ∨ (lifetimeAdj s u).out = s.out ++ [lifetimeOf u]
    exact lifetimeAdj_out s u
  refine ⟨hout1, ?_⟩
  have hl1 : aLookup s1.preserved (eventKey u) = some u := by
    rw [hs1]
    exact aLookup_aPut_self (eventKey u) u s.preserved
  have hl2 : aLookup s2.preserved (eventKey u) = some u := by
    rw [scanList_preserved_stable mid s1 s2 (eventKey u) h2 hmid]
    exact hl1
  have hf : aLookup s2.preserved (eventKey d) = some u := by rw [hk]; exact hl2
  refine ⟨{ lifetimeAdj s2 d with
      out := (lifetimeAdj s2 d).out ++ [mergeDetached d u],
      preserved := aErase (eventKey d) s2.preserved },
    scanStep_detached_found s2 d u hd hf, ?_, ?_, rfl, rfl, rfl, ?_⟩
  · rcases lifetimeAdj_out s2 d with h | h
    · left
      show (lifetimeAdj s2 d).out ++ [mergeDetached d u] = s2.out ++ [mergeDetached d u]
      rw [h]
    · right
      show (lifetimeAdj s2 d).out ++ [mergeDetached d u] =
        s2.out ++ [lifetimeOf d] ++ [mergeDetached d u]
      rw [h]
  · show d.ph = "X"
    exact hph
  · show aLookup (aErase (eventKey d) s2.preserved) (eventKey u) = none
    rw [hk]
    exact aLookup_aErase_self (eventKey u) s2.preserved

/-- The concrete unfinished event of the C2 witness scenario. -/
def pairU : Event :=
  { name := "futex", cat := "unfinished", ph := "B", pid := 7, tid := 7, ts := 10,
    args := { first := "(0x55)" } }

/-- The concrete detached event of the C2 witness scenario. -/
def pairD : Event :=
  { name := "futex", cat := "detached", ph := "X", pid := 7, tid := 7, ts := 25 }

/-- The scan state after processing `pairU` from the initial state. -/
def pairS1 : ScanState :=
  { liveThreads := [7], preserved := [("7futex", pairU)],
    out := [lifetimeOf pairU] }

/-- C2 witness: a concrete futex call interrupted at ts 10 and resumed at
ts 25 on thread 7, with nothing in between. -/
theorem unfinished_detached_pairing_witness :
    (pairU.cat = "unfinished" ∧ pairD.cat = "detached" ∧ pairD.ph = "X" ∧
      eventKey pairD = eventKey pairU ∧
      scanStep initScanState pairU = some pairS1 ∧
      scanList pairS1 [] = some pairS1) ∧
    ((pairS1.out = initScanState.out ∨
        pairS1.out = initScanState.out ++ [lifetimeOf pairU]) ∧
      ∃ s3, scanStep pairS1 pairD = some s3 ∧
        (s3.out = pairS1.out ++ [mergeDetached pairD pairU] ∨
          s3.out = pairS1.out ++ [lifetimeOf pairD] ++ [mergeDetached pairD pairU]) ∧
        (mergeDetached pairD pairU).ph = "X" ∧
        (mergeDetached pairD pairU).ts = pairU.ts ∧
        (mergeDetached pairD pairU).dur = pairD.ts - pairU.ts ∧
        (mergeDetached pairD pairU).args.first = pairU.args.first ∧
        aLookup s3.preserved (eventKey pairU) = none) :=
  ⟨⟨rfl, rfl, rfl, rfl, by decide, rfl⟩,
    unfinished_detached_pairing initScanState pairS1 pairS1 pairU pairD []
      rfl rfl rfl rfl (by intro e he; exact absurd he (by simp))
      (by decide) rfl⟩

/-! ## Claim C1: two-pass ancestry convergence -/

theorem rewritePid_tid (pt : PT) (e : Event) : (rewritePid pt e).tid = e.tid := by
  unfold rewritePid; cases aLookup pt e.tid <;> rfl

theorem rewritePid_name (pt : PT) (e : Event) : (rewritePid pt e).name = e.name := by
  unfold rewritePid; cases aLookup pt e.tid <;> rfl

theorem rewritePid_args (pt : PT) (e : Event) : (rewritePid pt e).args = e.args := by
  unfold rewritePid; cases aLookup pt e.tid <;> rfl

theorem rewritePid_pid_of_none (pt : PT) (e : Event)
    (h : aLookup pt e.tid = none) : (rewritePid pt e).pid = e.pid := by
  unfold rewritePid; rw [h]

theorem rewritePid_pid_of_some (pt : PT) (e : Event) (v : Int)
    (h : aLookup pt e.tid = some v) : (rewritePid pt e).pid = v := by
  unfold rewritePid; rw [h]

theorem ancestryUpdate_inert (pt : PT) (e : Event)
    (h : ¬(isCreation e.name = true ∧ (atoi e.args.returnValue).isSome = true)) :
    ancestryUpdate pt e = pt := by
  unfold ancestryUpdate
  by_cases hc : isCreation e.name = true
  · rw [if_pos hc]
    cases ha : atoi e.args.returnValue with
    | none => rfl
    | some v => exact absurd ⟨hc, by rw [ha]; rfl⟩ h
  · rw [if_neg hc]

theorem ancestryPass_cons (pt : PT) (e : Event) (es : List Event) :
    ancestryPass pt (e :: es) =
      ((ancestryPass (ancestryUpdate pt (rewritePid pt e)) es).1,
        rewritePid pt e :: (ancestryPass (ancestryUpdate pt (rewritePid pt e)) es).2) := rfl

theorem ancestryPass_inert (l : List Event) (pt : PT)
    (h : ∀ e ∈ l, ¬(isCreation e.name = true ∧ (atoi e.args.returnValue).isSome = true)) :
    ancestryPass pt l = (pt, l.map (rewritePid pt)) := by
  induction l with
  | nil => rfl
  | cons e t ih =>
    have hre : ¬(isCreation (rewritePid pt e).name = true ∧
        (atoi (rewritePid pt e).args.returnValue).isSome = true) := by
      rw [rewritePid_name, rewritePid_args]
      exact h e (List.mem_cons_self e t)
    rw [ancestryPass_cons, ancestryUpdate_inert pt _ hre,
      ih (fun x hx => h x (List.mem_cons_of_mem e hx))]
    rfl

theorem ancestryPass_append (pt : PT) (l1 l2 : List Event) :
    ancestryPass pt (l1 ++ l2) =
      ((ancestryPass (ancestryPass pt l1).1 l2).1,
        (ancestryPass pt l1).2 ++ (ancestryPass (ancestryPass pt l1).1 l2).2) := by
  induction l1 generalizing pt with
  | nil => rfl
  | cons e t ih =>
    rw [List.cons_append, ancestryPass_cons, ih, ancestryPass_cons]
    rfl

theorem ancestryPass_scenario (m m1 : PT) (l1 l2 : List Event) (c : Event)
    (h1 : ∀ e ∈ l1, ¬(isCreation e.name = true ∧ (atoi e.args.returnValue).isSome = true))
    (h2 : ∀ e ∈ l2, ¬(isCreation e.name = true ∧ (atoi e.args.returnValue).isSome = true))
    (hupd : ancestryUpdate m (rewritePid m c) = m1) :
    ancestryPass m (l1 ++ c :: l2) =
      (m1, l1.map (rewritePid m) ++ rewritePid m c :: l2.map (rewritePid m1)) := by
  rw [ancestryPass_append, ancestryPass_inert l1 m h1, ancestryPass_cons, hupd,
    ancestryPass_inert l2 m1 h2]

/-- C1: for a creation chain in which process `A` (whose events all carry
process id `A`) creates thread `T1` by the single creation call `c` in the
list — a fork/clone call whose argument text contains `CLONE_THREAD` and whose
return value parses to `T1` — and in which `T1`'s first logged event appears
in `l1`, before `c`'s return line, after the two ancestry passes every event
whose thread id is `T1` has its process id rewritten to `A`. -/
theorem ancestry_two_pass_convergence
    (l1 l2 : List Event) (c : Event) (A T1 : Int) (m0 : PT)
    (hseed : seedProcessThreads (l1 ++ c :: l2) = some m0)
    (hcname : isCreation c.name = true)
    (hcret : atoi c.args.returnValue = some T1)
    (hcflag : containsSub c.args.first "CLONE_THREAD" = true)
    (hctid : c.tid = A)
    (hAT : T1 ≠ A)
    (hfwd : ∃ e ∈ l1, e.tid = T1)
    (honly : ∀ e ∈ l1 ++ l2,
      ¬(isCreation e.name = true ∧ (atoi e.args.returnValue).isSome = true))
    (hApid : ∀ e ∈ l1 ++ c :: l2, e.tid = A → e.pid = A) :
    ∀ e ∈ (reconstructAncestry m0 (l1 ++ c :: l2)).2, e.tid = T1 → e.pid = A := by
  rcases hfwd with ⟨w, hw, hwT⟩
  cases l1 with
  | nil => cases hw
  | cons h t =>
    have honly1 : ∀ e ∈ h :: t,
        ¬(isCreation e.name = true ∧ (atoi e.args.returnValue).isSome = true) :=
      fun e he => honly e (List.mem_append_left l2 he)
    have honly2 : ∀ e ∈ l2,
        ¬(isCreation e.name = true ∧ (atoi e.args.returnValue).isSome = true) :=
      fun e he => honly e (List.mem_append_right (h :: t) he)
    have hm0 : m0 = [(h.tid, h.pid)] := by
      have hs : seedProcessThreads ((h :: t) ++ c :: l2) = some [(h.tid, h.pid)] := rfl
      rw [hs] at hseed
      exact (Option.some_injective _ hseed).symm
    have hcpid : c.pid = A :=
      hApid c (List.mem_append_right (h :: t) (List.mem_cons_self c l2)) hctid
    have hL0 : aLookup m0 A = none ∨ aLookup m0 A = some A := by
      rw [hm0]
      by_cases hh : A = h.tid
      · right
        have hp : h.pid = A := hApid h (List.mem_append_left _ (List.mem_cons_self h t)) hh.symm
        rw [aLookup_cons, if_pos hh, hp]
      · left
        rw [aLookup_cons, if_neg hh]
        rfl
    have hL0c : aLookup m0 c.tid = none ∨ aLookup m0 c.tid = some A := by
      rw [hctid]; exact hL0
    have hc1tid : (rewritePid m0 c).tid = A := by rw [rewritePid_tid, hctid]
    have hc1pid : (rewritePid m0 c).pid = A := by
      rcases hL0c with h0 | h0
      · rw [rewritePid_pid_of_none m0 c h0]; exact hcpid
      · exact rewritePid_pid_of_some m0 c A h0
    have hupd1 : ancestryUpdate m0 (rewritePid m0 c) = aInsert T1 A m0 := by
      unfold ancestryUpdate
      rw [rewritePid_name, rewritePid_args, if_pos hcname, hcret]
      simp only [hcflag, if_true, hc1pid]
    have hpass1 := ancestryPass_scenario m0 (aInsert T1 A m0) (h :: t) l2 c
      honly1 honly2 hupd1
    have honly1m : ∀ e ∈ (h :: t).map (rewritePid m0),
        ¬(isCreation e.name = true ∧ (atoi e.args.returnValue).isSome = true) := by
      intro e he
      rcases List.mem_map.mp he with ⟨x, hx, rfl⟩
      rw [rewritePid_name, rewritePid_args]
      exact honly1 x hx
    have honly2m : ∀ e ∈ l2.map (rewritePid (aInsert T1 A m0)),
        ¬(isCreation e.name = true ∧ (atoi e.args.returnValue).isSome = true) := by
      intro e he
      rcases List.mem_map.mp he with ⟨x, hx, rfl⟩
      rw [rewritePid_name, rewritePid_args]
      exact honly2 x hx
    have hL1 : aLookup (aInsert T1 A m0) A = none ∨ aLookup (aInsert T1 A m0) A = some A := by
      have hs : aInsert T1 A m0 = (T1, A) :: m0 := rfl
      rw [hs, aLookup_cons, if_neg (fun he => hAT he.symm)]
      exact hL0
    have hc2tid : (rewritePid (aInsert T1 A m0) (rewritePid m0 c)).tid = A := by
      rw [rewritePid_tid]; exact hc1tid
    have hc2pid : (rewritePid (aInsert T1 A m0) (rewritePid m0 c)).pid = A := by
      have hL1c : aLookup (aInsert T1 A m0) (rewritePid m0 c).tid = none ∨
          aLookup (aInsert T1 A m0) (rewritePid m0 c).tid = some A := by
        rw [hc1tid]; exact hL1
      rcases hL1c with h0 | h0
      · rw [rewritePid_pid_of_none _ _ h0]; exact hc1pid
      · exact rewritePid_pid_of_some _ _ A h0
    have hupd2 : ancestryUpdate (aInsert T1 A m0)
        (rewritePid (aInsert T1 A m0) (rewritePid m0 c)) =
        aInsert T1 A (aInsert T1 A m0) := by
      unfold ancestryUpdate
      rw [rewritePid_name, rewritePid_name, rewritePid_args, rewritePid_args,
        if_pos hcname, hcret]
      simp only [hcflag, if_true, hc2pid]
    have hpass2 := ancestryPass_scenario (aInsert T1 A m0) (aInsert T1 A (aInsert T1 A m0))
      ((h :: t).map (rewritePid m0)) (l2.map (rewritePid (aInsert T1 A m0)))
      (rewritePid m0 c) honly1m honly2m hupd2
    have hrec : (reconstructAncestry m0 ((h :: t) ++ c :: l2)).2 =
        ((h :: t).map (rewritePid m0)).map (rewritePid (aInsert T1 A m0)) ++
          rewritePid (aInsert T1 A m0) (rewritePid m0 c) ::
            (l2.map (rewritePid (aInsert T1 A m0))).map
              (rewritePid (aInsert T1 A (aInsert T1 A m0))) := by
      unfold reconstructAncestry
      rw [hpass1]
      show (ancestryPass (aInsert T1 A m0)
        ((h :: t).map (rewritePid m0) ++ rewritePid m0 c ::
          l2.map (rewritePid (aInsert T1 A m0)))).2 = _
      rw [hpass2]
    rw [hrec]
    intro e he hT
    have hlook1 : aLookup (aInsert T1 A m0) T1 = some A := by
      rw [show aInsert T1 A m0 = (T1, A) :: m0 from rfl, aLookup_cons, if_pos rfl]
    have hlook2 : aLookup (aInsert T1 A (aInsert T1 A m0)) T1 = some A := by
      rw [show aInsert T1 A (aInsert T1 A m0) = (T1, A) :: aInsert T1 A m0 from rfl,
        aLookup_cons, if_pos rfl]
    rcases List.mem_append.mp he with hleft | hright
    · rcases List.mem_map.mp hleft with ⟨x, hx, rfl⟩
      have hxT : x.tid = T1 := by rw [← rewritePid_tid (aInsert T1 A m0) x]; exact hT
      exact rewritePid_pid_of_some _ x A (by rw [hxT]; exact hlook1)
    · rcases List.mem_cons.mp hright with hc2 | hrest
      · rw [hc2] at hT
        exact absurd (hc2tid ▸ hT : A = T1) (fun he2 => hAT he2.symm)
      · rcases List.mem_map.mp hrest with ⟨x, hx, rfl⟩
        have hxT : x.tid = T1 := by
          rw [← rewritePid_tid (aInsert T1 A (aInsert T1 A m0)) x]; exact hT
        exact rewritePid_pid_of_some _ x A (by rw [hxT]; exact hlook2)

/-- The C1 witness creation call: process 100 creates thread 101 sharing the
address space; the call returns at ts 1. -/
def chainC : Event :=
  { name := "clone", cat := "successful", ph := "X", pid := 100, tid := 100, ts := 1,
    args := { first := "(CLONE_THREAD, ...)", returnValue := "101" } }

/-- The C1 witness event of thread 101 logged before the creation call's
return line. -/
def chainW1 : Event :=
  { name := "write", cat := "successful", ph := "X", pid := 101, tid := 101, ts := 20,
    args := { first := "(1)", returnValue := "14" } }

/-- The C1 witness event of thread 101 logged after the creation call. -/
def chainW2 : Event :=
  { name := "read", cat := "successful", ph := "X", pid := 101, tid := 101, ts := 30,
    args := { first := "(3)", returnValue := "1" } }

/-- C1 witness: the theorem applied to the concrete creation chain, with
thread 101's first event logged before the clone return line. -/
theorem ancestry_two_pass_convergence_witness :
    (seedProcessThreads ([chainW1] ++ chainC :: [chainW2]) = some [(101, 101)] ∧
      isCreation chainC.name = true ∧
      atoi chainC.args.returnValue = some 101 ∧
      containsSub chainC.args.first "CLONE_THREAD" = true ∧
      chainC.tid = 100 ∧ (101 : Int) ≠ 100 ∧
      (∃ e ∈ [chainW1], e.tid = 101) ∧
      (∀ e ∈ [chainW1] ++ [chainW2],
        ¬(isCreation e.name = true ∧ (atoi e.args.returnValue).isSome = true)) ∧
      (∀ e ∈ [chainW1] ++ chainC :: [chainW2], e.tid = 100 → e.pid = 100)) ∧
    ∀ e ∈ (reconstructAncestry [(101, 101)] ([chainW1] ++ chainC :: [chainW2])).2,
      e.tid = 101 → e.pid = 100 :=
  ⟨by decide,
    ancestry_two_pass_convergence [chainW1] [chainW2] chainC 100 101 [(101, 101)]
      (by decide) (by decide) (by decide) (by decide) (by decide) (by decide)
      (by decide) (by decide) (by decide)⟩

/-! ## Claims C6 and C10: flow-edge synthesis -/

/-- A creation event (after the pid rewrite) whose return value parses — the
guard under which `metaCreation` synthesizes flow events. -/
def isParsedCreation (e : Event) : Bool :=
  isCreation e.name && (atoi e.args.returnValue).isSome

/-- The FlowStart/FlowEnd pair appended by `metaCreation` for a creation event
`e` with parsed child id `childTid` and current flow counter `fid`. -/
def flowPair (e : Event) (childTid : Int) (fid : Nat) : List Event :=
  [{ name := e.name, cat := "clone", ph := "s", pid := e.pid, tid := e.tid,
     ts := e.ts + 1, id := fid },
   if containsSub e.args.first "CLONE_THREAD" then
     { name := e.name, cat := "clone", ph := "f", pid := e.pid, tid := childTid,
       ts := e.ts + 1, id := fid }
   else
     { name := e.name, cat := "clone", ph := "f", pid := childTid, tid := childTid,
       ts := e.ts + 1, id := fid }]

/-- The flow events one event contributes. -/
def eventFlows (e : Event) (fid : Nat) : List Event :=
  if isCreation e.name then
    match atoi e.args.returnValue with
    | some ct => flowPair e ct fid
    | none => []
  else []

/-- The flow events the whole metadata loop synthesizes, with the counter
threaded through. -/
def flowsFrom (pt : PT) (fid : Nat) : List Event → List Event
  | [] => []
  | e :: es =>
    eventFlows (rewritePid pt e) fid ++
      flowsFrom pt (fid + (if isParsedCreation (rewritePid pt e) then 1 else 0)) es

/-- The pid-rewritten creation events whose return value parses, in order. -/
def creationsR (pt : PT) (es : List Event) : List Event :=
  (es.map (rewritePid pt)).filter isParsedCreation

theorem creationsR_cons (pt : PT) (e : Event) (es : List Event) :
    creationsR pt (e :: es) =
      if isParsedCreation (rewritePid pt e) then
        rewritePid pt e :: creationsR pt es
      else creationsR pt es := by
  unfold creationsR
  rw [List.map_cons, List.filter_cons]

theorem bool_not_true {b : Bool} (h : ¬(b = true)) : b = false := by
  cases b
  · rfl
  · exact absurd rfl h

theorem eventFlows_parsed (e : Event) (fid : Nat) (h : isParsedCreation e = true) :
    ∃ ct, atoi e.args.returnValue = some ct ∧ eventFlows e fid = flowPair e ct fid := by
  unfold isParsedCreation at h
  have hpair : isCreation e.name = true ∧ (atoi e.args.returnValue).isSome = true := by
    simpa using h
  have hcr : isCreation e.name = true := hpair.1
  have hsome : (atoi e.args.returnValue).isSome = true := hpair.2
  cases hat : atoi e.args.returnValue with
  | none => rw [hat] at hsome; exact absurd hsome (by simp)
  | some ct =>
    refine ⟨ct, rfl, ?_⟩
    unfold eventFlows
    rw [if_pos hcr, hat]

theorem eventFlows_not_parsed (e : Event) (fid : Nat) (h : isParsedCreation e = false) :
    eventFlows e fid = [] := by
  unfold isParsedCreation at h
  unfold eventFlows
  by_cases hcr : isCreation e.name = true
  · rw [if_pos hcr]
    rw [hcr] at h
    cases hat : atoi e.args.returnValue with
    | none => rfl
    | some ct => rw [hat] at h; exact absurd h (by simp)
  · rw [if_neg hcr]

theorem metaPrctl_metadataEvents (st : MetaState) (e : Event) :
    (metaPrctl st e).metadataEvents = st.metadataEvents := by
  unfold metaPrctl; split <;> rfl

theorem metaPrctl_nextFlowId (st : MetaState) (e : Event) :
    (metaPrctl st e).nextFlowId = st.nextFlowId := by
  unfold metaPrctl; split <;> rfl

theorem metaExecve_metadataEvents (st : MetaState) (e : Event) :
    (metaExecve st e).metadataEvents = st.metadataEvents := by
  unfold metaExecve; split <;> rfl

theorem metaExecve_nextFlowId (st : MetaState) (e : Event) :
    (metaExecve st e).nextFlowId = st.nextFlowId := by
  unfold metaExecve; split <;> rfl

theorem metaWrite_flows (st : MetaState) (e : Event) :
    ((metaWrite st e).metadataEvents).filter isFlowEvent =
      st.metadataEvents.filter isFlowEvent ∧
    (metaWrite st e).nextFlowId = st.nextFlowId := by
  unfold metaWrite
  constructor
  · split
    · split
      · simp [isFlowEvent]
      · rfl
    · rfl
  · split
    · split <;> rfl
    · rfl

theorem metaCreation_flows (st : MetaState) (e : Event) :
    ((metaCreation st e).metadataEvents).filter isFlowEvent =
      st.metadataEvents.filter isFlowEvent ++ eventFlows e st.nextFlowId ∧
    (metaCreation st e).nextFlowId =
      st.nextFlowId + (if isParsedCreation e then 1 else 0) := by
  by_cases hcr : isCreation e.name = true
  · cases hat : atoi e.args.returnValue with
    | none =>
      have hp : isParsedCreation e = false := by
        unfold isParsedCreation; rw [hat]; simp
      constructor
      · rw [eventFlows_not_parsed e st.nextFlowId hp, List.append_nil]
        unfold metaCreation
        rw [if_pos hcr, hat]
      · unfold metaCreation
        rw [if_pos hcr, hat, hp]
        simp
    | some ct =>
      have hp : isParsedCreation e = true := by
        unfold isParsedCreation; rw [hat, hcr]; rfl
      constructor
      · unfold metaCreation eventFlows flowPair
        by_cases hcs : containsSub e.args.first "CLONE_THREAD" = true
        · simp [hcr, hat, hcs, isFlowEvent, List.filter_append]
        · simp [hcr, hat, hcs, isFlowEvent, List.filter_append]
      · unfold metaCreation
        by_cases hcs : containsSub e.args.first "CLONE_THREAD" = true
        · simp [hcr, hat, hcs, hp]
        · simp [hcr, hat, hcs, hp]
  · have hcf : isCreation e.name = false := bool_not_true hcr
    have hp : isParsedCreation e = false := by
      unfold isParsedCreation; rw [hcf]; simp
    constructor
    · rw [eventFlows_not_parsed e st.nextFlowId hp, List.append_nil]
      unfold metaCreation
      rw [if_neg hcr]
    · unfold metaCreation
      rw [if_neg hcr, hp]
      simp

theorem metaStep_flows (pt : PT) (st : MetaState) (e : Event) :
    ((metaStep pt st e).1.metadataEvents).filter isFlowEvent =
      st.metadataEvents.filter isFlowEvent ++
        eventFlows (rewritePid pt e) st.nextFlowId ∧
    (metaStep pt st e).1.nextFlowId =
      st.nextFlowId + (if isParsedCreation (rewritePid pt e) then 1 else 0) := by
  have hC := metaCreation_flows
    (metaWrite (metaExecve (metaPrctl st (rewritePid pt e)) (rewritePid pt e))
      (rewritePid pt e)) (rewritePid pt e)
  have hW := metaWrite_flows
    (metaExecve (metaPrctl st (rewritePid pt e)) (rewritePid pt e)) (rewritePid pt e)
  constructor
  · show ((metaCreation (metaWrite (metaExecve (metaPrctl st (rewritePid pt e))
      (rewritePid pt e)) (rewritePid pt e)) (rewritePid pt e)).metadataEvents).filter
        isFlowEvent = _
    rw [hC.1, hW.1, metaExecve_metadataEvents, metaPrctl_metadataEvents,
      hW.2, metaExecve_nextFlowId, metaPrctl_nextFlowId]
  · show (metaCreation (metaWrite (metaExecve (metaPrctl st (rewritePid pt e))
      (rewritePid pt e)) (rewritePid pt e)) (rewritePid pt e)).nextFlowId = _
    rw [hC.2, hW.2, metaExecve_nextFlowId, metaPrctl_nextFlowId]

theorem metaRun_fst_cons (pt : PT) (st : MetaState) (e : Event) (es : List Event) :
    (metaRun pt st (e :: es)).1 = (metaRun pt (metaStep pt st e).1 es).1 := rfl

theorem metaRun_flows (es : List Event) (pt : PT) (st : MetaState) :
    ((metaRun pt st es).1.metadataEvents).filter isFlowEvent =
      st.metadataEvents.filter isFlowEvent ++ flowsFrom pt st.nextFlowId es ∧
    (metaRun pt st es).1.nextFlowId = st.nextFlowId + (creationsR pt es).length := by
  induction es generalizing st with
  | nil =>
    constructor
    · show st.metadataEvents.filter isFlowEvent = _
      rw [show flowsFrom pt st.nextFlowId [] = [] from rfl, List.append_nil]
    · show st.nextFlowId = _
      rw [show creationsR pt [] = [] from rfl]
      rfl
  | cons e t ih =>
    have hs := metaStep_flows pt st e
    have hi := ih (metaStep pt st e).1
    constructor
    · rw [metaRun_fst_cons, hi.1, hs.1, hs.2,
        show flowsFrom pt st.nextFlowId (e :: t) =
          eventFlows (rewritePid pt e) st.nextFlowId ++
            flowsFrom pt (st.nextFlowId +
              (if isParsedCreation (rewritePid pt e) then 1 else 0)) t from rfl,
        List.append_assoc]
    · rw [metaRun_fst_cons, hi.2, hs.2, creationsR_cons]
      by_cases hp : isParsedCreation (rewritePid pt e) = true
      · rw [if_pos hp, if_pos hp, List.length_cons]
        omega
      · rw [if_neg hp, if_neg hp]
        omega

theorem flowPair_length (e : Event) (ct : Int) (fid : Nat) :
    (flowPair e ct fid).length = 2 := rfl

theorem flowsFrom_length (es : List Event) (pt : PT) (fid : Nat) :
    (flowsFrom pt fid es).length = 2 * (creationsR pt es).length := by
  induction es generalizing fid with
  | nil => rfl
  | cons e t ih =>
    rw [show flowsFrom pt fid (e :: t) =
      eventFlows (rewritePid pt e) fid ++
        flowsFrom pt (fid + (if isParsedCreation (rewritePid pt e) then 1 else 0)) t
      from rfl, creationsR_cons, List.length_append]
    by_cases hp : isParsedCreation (rewritePid pt e) = true
    · obtain ⟨ct, _, hef⟩ := eventFlows_parsed (rewritePid pt e) fid hp
      rw [hef, flowPair_length, if_pos hp, if_pos hp, ih, List.length_cons]
      omega
    · rw [eventFlows_not_parsed _ _ (bool_not_true hp), if_neg hp, if_neg hp, ih]
      simp

theorem flowsFrom_get (es : List Event) (pt : PT) (fid : Nat) (k : Nat)
    (hk : k < (creationsR pt es).length) :
    ∃ c ct, (creationsR pt es).get? k = some c ∧
      atoi c.args.returnValue = some ct ∧
      (flowsFrom pt fid es).get? (2 * k) =
        some { name := c.name, cat := "clone", ph := "s", pid := c.pid, tid := c.tid,
               ts := c.ts + 1, id := fid + k } ∧
      (flowsFrom pt fid es).get? (2 * k + 1) =
        some (if containsSub c.args.first "CLONE_THREAD" then
            { name := c.name, cat := "clone", ph := "f", pid := c.pid, tid := ct,
              ts := c.ts + 1, id := fid + k }
          else
            { name := c.name, cat := "clone", ph := "f", pid := ct, tid := ct,
              ts := c.ts + 1, id := fid + k }) := by
  induction es generalizing fid k with
  | nil => rw [show creationsR pt [] = [] from rfl] at hk; cases hk
  | cons e t ih =>
    have hflow : flowsFrom pt fid (e :: t) =
        eventFlows (rewritePid pt e) fid ++
          flowsFrom pt (fid + (if isParsedCreation (rewritePid pt e) then 1 else 0)) t :=
      rfl
    by_cases hp : isParsedCreation (rewritePid pt e) = true
    · obtain ⟨ct, hat, hef⟩ := eventFlows_parsed (rewritePid pt e) fid hp
      rw [creationsR_cons, if_pos hp] at hk ⊢
      cases k with
      | zero =>
        refine ⟨rewritePid pt e, ct, rfl, hat, ?_, ?_⟩
        · rw [hflow, hef]
          rfl
        · rw [hflow, hef]
          unfold flowPair
          split <;> rfl
      | succ k1 =>
        have hk1 : k1 < (creationsR pt t).length := by
          rw [List.length_cons] at hk; omega
        obtain ⟨c, ct1, hget, hat1, hs, hf⟩ :=
          ih (fid + (if isParsedCreation (rewritePid pt e) then 1 else 0)) k1 hk1
        rw [if_pos hp] at hs hf
        have hfid : fid + 1 + k1 = fid + (k1 + 1) := by omega
        rw [hfid] at hs hf
        refine ⟨c, ct1, hget, hat1, ?_, ?_⟩
        · rw [hflow, hef, List.get?_append_right (by rw [flowPair_length]; omega),
            flowPair_length, if_pos hp]
          rw [show 2 * (k1 + 1) - 2 = 2 * k1 from by omega]
          exact hs
        · rw [hflow, hef, List.get?_append_right (by rw [flowPair_length]; omega),
            flowPair_length, if_pos hp]
          rw [show 2 * (k1 + 1) + 1 - 2 = 2 * k1 + 1 from by omega]
          exact hf
    · have hpf : isParsedCreation (rewritePid pt e) = false := bool_not_true hp
      rw [creationsR_cons, if_neg hp] at hk ⊢
      obtain ⟨c, ct, hget, hat, hs, hf⟩ :=
        ih (fid + (if isParsedCreation (rewritePid pt e) then 1 else 0)) k hk
      rw [if_neg hp, Nat.add_zero] at hs hf
      have hflow2 : flowsFrom pt fid (e :: t) = flowsFrom pt fid t := by
        rw [hflow, eventFlows_not_parsed _ _ hpf, List.nil_append, if_neg hp,
          Nat.add_zero]
      refine ⟨c, ct, hget, hat, ?_, ?_⟩
      · rw [hflow2]; exact hs
      · rw [hflow2]; exact hf

/-- A clone call that never resumed: it is flushed as an instant event with an
empty return-value text, which does not parse. -/
def unfinishedClone : Event :=
  { name := "clone", cat := "unfinished", ph := "i", pid := 9, tid := 9, ts := 4,
    args := { first := "(child_stack=0x7f, flags=CLONE_THREAD" } }

/-- C6 counterexample: the claim as stated — *every* creation call in the
event list yields exactly two flow events — fails on a creation call whose
return value does not parse: `unfinishedClone` is a creation call, yet the
metadata loop synthesizes zero flow events for the list containing it. -/
theorem flow_pair_counterexample :
    isCreation unfinishedClone.name = true ∧
    ((metaRun [] initMetaState [unfinishedClone]).1.metadataEvents).filter isFlowEvent
      = [] ∧
    ¬(((metaRun [] initMetaState [unfinishedClone]).1.metadataEvents).filter
        isFlowEvent).length = 2 := by
  refine ⟨by decide, by decide, by decide⟩

/-- C6 (amended): for every creation call (fork or clone-family) in the event
list *whose return-value text parses as an integer*, exactly two flow events
are synthesized sharing the same flow identifier — a FlowStart (`"s"`) on the
creator's process/thread ids and a FlowEnd (`"f"`) on the new id — both
timestamped one microsecond after the creation call, and the `k`-th such
creation call carries identifier `k`, so identifiers increment monotonically
from zero across successive creation calls. -/
theorem flow_pairs_per_parsed_creation (pt : PT) (es : List Event) :
    (((metaRun pt initMetaState es).1.metadataEvents).filter isFlowEvent).length =
      2 * (creationsR pt es).length ∧
    ∀ k, k < (creationsR pt es).length →
      ∃ c ct, (creationsR pt es).get? k = some c ∧
        atoi c.args.returnValue = some ct ∧
        (((metaRun pt initMetaState es).1.metadataEvents).filter isFlowEvent).get?
            (2 * k) =
          some { name := c.name, cat := "clone", ph := "s", pid := c.pid, tid := c.tid,
                 ts := c.ts + 1, id := k } ∧
        (((metaRun pt initMetaState es).1.metadataEvents).filter isFlowEvent).get?
            (2 * k + 1) =
          some (if containsSub c.args.first "CLONE_THREAD" then
              { name := c.name, cat := "clone", ph := "f", pid := c.pid, tid := ct,
                ts := c.ts + 1, id := k }
            else
              { name := c.name, cat := "clone", ph := "f", pid := ct, tid := ct,
                ts := c.ts + 1, id := k }) := by
  have hm := metaRun_flows es pt initMetaState
  have hme : ((metaRun pt initMetaState es).1.metadataEvents).filter isFlowEvent =
      flowsFrom pt 0 es := by
    rw [hm.1]
    rfl
  constructor
  · rw [hme]
    exact flowsFrom_length es pt 0
  · intro k hk
    obtain ⟨c, ct, hget, hat, hs, hf⟩ := flowsFrom_get es pt 0 k hk
    rw [Nat.zero_add] at hs hf
    exact ⟨c, ct, hget, hat, by rw [hme]; exact hs, by rw [hme]; exact hf⟩

/-- The C6/C10 witness creation call: a clone with parsed child id 7. -/
def goodClone : Event :=
  { name := "clone", cat := "successful", ph := "X", pid := 3, tid := 3, ts := 40,
    args := { first := "(child_stack=0x7f, flags=CLONE_THREAD", returnValue := "7" } }

/-- C6 witness: the amended theorem applied to the single-creation list. -/
theorem flow_pairs_per_parsed_creation_witness :
    (0 < (creationsR [] [goodClone]).length) ∧
    (∃ c ct, (creationsR [] [goodClone]).get? 0 = some c ∧
      atoi c.args.returnValue = some ct ∧
      (((metaRun [] initMetaState [goodClone]).1.metadataEvents).filter
          isFlowEvent).get? 0 =
        some { name := c.name, cat := "clone", ph := "s", pid := c.pid, tid := c.tid,
               ts := c.ts + 1, id := 0 } ∧
      (((metaRun [] initMetaState [goodClone]).1.metadataEvents).filter
          isFlowEvent).get? 1 =
        some (if containsSub c.args.first "CLONE_THREAD" then
            { name := c.name, cat := "clone", ph := "f", pid := c.pid, tid := ct,
              ts := c.ts + 1, id := 0 }
          else
            { name := c.name, cat := "clone", ph := "f", pid := ct, tid := ct,
              ts := c.ts + 1, id := 0 })) :=
  ⟨by decide, (flow_pairs_per_parsed_creation [] [goodClone]).2 0 (by decide)⟩

/-- The JSON key `"id"` is absent from the serialization of an event whose
identifier is zero (`Id uint64` carries `omitempty`). -/
theorem id_key_omitted_of_zero (e : Event) (h : e.id = 0) :
    "id" ∉ serializedKeys e := by
  unfold serializedKeys
  rw [h]
  by_cases hd : e.dur = 0
  · rw [if_pos hd]
    simp
  · rw [if_neg hd]
    simp

/-- C10: the flow counter starts at zero and the serializer omits zero-valued
optional id fields, so whenever the list contains at least one parseable
creation call, the first FlowStart/FlowEnd pair both carry identifier 0 and
neither is serialized with an `"id"` field. -/
theorem first_flow_pair_has_no_id_field (pt : PT) (es : List Event)
    (h : creationsR pt es ≠ []) :
    initMetaState.nextFlowId = 0 ∧
    ∃ s f rest,
      ((metaRun pt initMetaState es).1.metadataEvents).filter isFlowEvent =
        s :: f :: rest ∧
      s.id = 0 ∧ f.id = 0 ∧ s.ph = "s" ∧ f.ph = "f" ∧
      "id" ∉ serializedKeys s ∧ "id" ∉ serializedKeys f := by
  refine ⟨rfl, ?_⟩
  have hk : 0 < (creationsR pt es).length := List.length_pos.mpr h
  obtain ⟨c, ct, hget, hat, hs, hf⟩ := (flow_pairs_per_parsed_creation pt es).2 0 hk
  rw [Nat.mul_zero] at hs
  rw [show 2 * 0 + 1 = 1 from rfl] at hf
  set flows := ((metaRun pt initMetaState es).1.metadataEvents).filter isFlowEvent
    with hflows
  match hfl : flows, hs, hf with
  | s0 :: f0 :: rest, hs, hf =>
    have hs0 : s0 =
        { name := c.name, cat := "clone", ph := "s", pid := c.pid, tid := c.tid,
          ts := c.ts + 1, id := 0 } :=
      Option.some_injective _ hs
    have hf0 : f0 =
        (if containsSub c.args.first "CLONE_THREAD" then
          { name := c.name, cat := "clone", ph := "f", pid := c.pid, tid := ct,
            ts := c.ts + 1, id := 0 }
        else
          { name := c.name, cat := "clone", ph := "f", pid := ct, tid := ct,
            ts := c.ts + 1, id := 0 }) :=
      Option.some_injective _ hf
    have hsid : s0.id = 0 := by rw [hs0]
    have hfid : f0.id = 0 := by
      rw [hf0]
      split <;> rfl
    have hsph : s0.ph = "s" := by rw [hs0]
    have hfph : f0.ph = "f" := by
      rw [hf0]
      split <;> rfl
    exact ⟨s0, f0, rest, rfl, hsid, hfid, hsph, hfph,
      id_key_omitted_of_zero s0 hsid, id_key_omitted_of_zero f0 hfid⟩

/-- C10 witness: the theorem applied to the single-creation list. -/
theorem first_flow_pair_has_no_id_field_witness :
    (creationsR [] [goodClone] ≠ []) ∧
    (initMetaState.nextFlowId = 0 ∧
      ∃ s f rest,
        ((metaRun [] initMetaState [goodClone]).1.metadataEvents).filter isFlowEvent =
          s :: f :: rest ∧
        s.id = 0 ∧ f.id = 0 ∧ s.ph = "s" ∧ f.ph = "f" ∧
        "id" ∉ serializedKeys s ∧ "id" ∉ serializedKeys f) :=
  ⟨by decide, first_flow_pair_has_no_id_field [] [goodClone] (by decide)⟩

/-! ## Claim C3: the k-way merge -/

theorem selectLoop_total (rest : List (List Event)) (acc : Nat × Event) (i : Nat)
    (h : ∀ l ∈ rest, l ≠ []) : ∃ p, selectLoop acc i rest = some p := by
  induction rest generalizing acc i with
  | nil => exact ⟨acc, rfl⟩
  | cons l t ih =>
    cases l with
    | nil => exact absurd rfl (h [] (List.mem_cons_self [] t))
    | cons x xs =>
      unfold selectLoop
      split
      · exact ih _ _ (fun l hl => h l (List.mem_cons_of_mem _ hl))
      · exact ih _ _ (fun l hl => h l (List.mem_cons_of_mem _ hl))

theorem selectLoop_spec (rest : List (List Event)) :
    ∀ (bi : Nat) (be : Event) (i ri : Nat) (re : Event), bi < i →
    selectLoop (bi, be) i rest = some (ri, re) →
    ((ri = bi ∧ re = be) ∨
      ∃ j x xs, rest.get? j = some (x :: xs) ∧ ri = i + j ∧ re = x) ∧
    re.ts ≤ be.ts ∧
    (∀ j x xs, rest.get? j = some (x :: xs) → re.ts ≤ x.ts) ∧
    (ri ≠ bi → re.ts < be.ts) ∧
    (∀ j x xs, rest.get? j = some (x :: xs) → i + j < ri → re.ts < x.ts) := by
  induction rest with
  | nil =>
    intro bi be i ri re hbi h
    have hp : (bi, be) = (ri, re) := Option.some_injective _ h
    injection hp with h1 h2
    subst h1
    subst h2
    refine ⟨Or.inl ⟨rfl, rfl⟩, le_refl _, ?_, ?_, ?_⟩
    · intro j x xs hj; cases j <;> cases hj
    · intro hne; exact absurd rfl hne
    · intro j x xs hj; cases j <;> cases hj
  | cons l t ih =>
    intro bi be i ri re hbi h
    cases l with
    | nil => cases h
    | cons x xs =>
      unfold selectLoop at h
      by_cases hle : be.ts ≤ x.ts
      · rw [if_pos hle] at h
        obtain ⟨horig, hle2, hall, hbase, hstrict⟩ := ih bi be (i + 1) ri re (by omega) h
        refine ⟨?_, hle2, ?_, hbase, ?_⟩
        · rcases horig with ⟨hri, hre⟩ | ⟨j, y, ys, hj, hri, hre⟩
          · exact Or.inl ⟨hri, hre⟩
          · exact Or.inr ⟨j + 1, y, ys, hj, by omega, hre⟩
        · intro j y ys hj
          cases j with
          | zero =>
            have hxy : x :: xs = y :: ys := Option.some_injective _ hj
            injection hxy with h1 h2
            rw [← h1]
            exact le_trans hle2 hle
          | succ j1 => exact hall j1 y ys hj
        · intro j y ys hj hlt
          cases j with
          | zero =>
            have hxy : x :: xs = y :: ys := Option.some_injective _ hj
            injection hxy with h1 h2
            rw [← h1]
            have hne : ri ≠ bi := by omega
            exact lt_of_lt_of_le (hbase hne) hle
          | succ j1 => exact hstrict j1 y ys hj (by omega)
      · rw [if_neg hle] at h
        have hxlt : x.ts < be.ts := by omega
        obtain ⟨horig, hle2, hall, hbase, hstrict⟩ := ih i x (i + 1) ri re (by omega) h
        refine ⟨?_, by omega, ?_, ?_, ?_⟩
        · rcases horig with ⟨hri, hre⟩ | ⟨j, y, ys, hj, hri, hre⟩
          · exact Or.inr ⟨0, x, xs, rfl, by omega, hre⟩
          · exact Or.inr ⟨j + 1, y, ys, hj, by omega, hre⟩
        · intro j y ys hj
          cases j with
          | zero =>
            have hxy : x :: xs = y :: ys := Option.some_injective _ hj
            injection hxy with h1 h2
            rw [← h1]
            exact hle2
          | succ j1 => exact hall j1 y ys hj
        · intro _; omega
        · intro j y ys hj hlt
          cases j with
          | zero =>
            have hxy : x :: xs = y :: ys := Option.some_injective _ hj
            injection hxy with h1 h2
            rw [← h1]
            exact hbase (by omega)
          | succ j1 => exact hstrict j1 y ys hj (by omega)

theorem select_spec (ls : List (List Event)) (i : Nat) (e : Event)
    (h : select ls = some (i, e)) :
    (∃ tail, ls.get? i = some (e :: tail)) ∧
    (∀ j x xs, ls.get? j = some (x :: xs) → e.ts ≤ x.ts) ∧
    (∀ j x xs, ls.get? j = some (x :: xs) → j < i → e.ts < x.ts) := by
  cases ls with
  | nil => cases h
  | cons l rest =>
    cases l with
    | nil => cases h
    | cons x xs =>
      have hloop : selectLoop (0, x) 1 rest = some (i, e) := h
      obtain ⟨horig, hle2, hall, hbase, hstrict⟩ :=
        selectLoop_spec rest 0 x 1 i e (by omega) hloop
      refine ⟨?_, ?_, ?_⟩
      · rcases horig with ⟨hri, hre⟩ | ⟨j, y, ys, hj, hri, hre⟩
        · refine ⟨xs, ?_⟩
          rw [hri, hre]
          rfl
        · refine ⟨ys, ?_⟩
          rw [hri, hre]
          show ((x :: xs) :: rest).get? (1 + j) = some (y :: ys)
          rw [show 1 + j = j + 1 from by omega]
          exact hj
      · intro j y ys hj
        cases j with
        | zero =>
          have hxy : x :: xs = y :: ys := Option.some_injective _ hj
          injection hxy with h1 h2
          rw [← h1]
          exact hle2
        | succ j1 => exact hall j1 y ys hj
      · intro j y ys hj hji
        cases j with
        | zero =>
          have hxy : x :: xs = y :: ys := Option.some_injective _ hj
          injection hxy with h1 h2
          rw [← h1]
          exact hbase (by omega)
        | succ j1 => exact hstrict j1 y ys hj (by omega)

theorem select_total (ls : List (List Event)) (hne : ls ≠ [])
    (h : ∀ l ∈ ls, l ≠ []) : ∃ p, select ls = some p := by
  cases ls with
  | nil => exact absurd rfl hne
  | cons l rest =>
    cases l with
    | nil => exact absurd rfl (h [] (List.mem_cons_self [] rest))
    | cons x xs =>
      exact selectLoop_total rest (0, x) 1 (fun l hl => h l (List.mem_cons_of_mem _ hl))

theorem totalLen_cons (l : List Event) (rest : List (List Event)) :
    totalLen (l :: rest) = l.length + totalLen rest := rfl

theorem popAt_totalLen (ls : List (List Event)) :
    ∀ (i : Nat) (e : Event) (tail : List Event), ls.get? i = some (e :: tail) →
    totalLen (popAt i ls) + 1 = totalLen ls := by
  induction ls with
  | nil => intro i e tail h; cases h
  | cons l rest ih =>
    intro i e tail h
    cases i with
    | zero =>
      have hl : l = e :: tail := Option.some_injective _ h
      subst hl
      cases tail with
      | nil =>
        show totalLen rest + 1 = totalLen ([e] :: rest)
        simp only [totalLen_cons, List.length_cons, List.length_nil]
        omega
      | cons y ys =>
        show totalLen ((y :: ys) :: rest) + 1 = totalLen ((e :: y :: ys) :: rest)
        simp only [totalLen_cons, List.length_cons]
        omega
    | succ i1 =>
      have h1 : rest.get? i1 = some (e :: tail) := h
      have := ih i1 e tail h1
      show totalLen (l :: popAt i1 rest) + 1 = totalLen (l :: rest)
      rw [totalLen_cons, totalLen_cons]
      omega

theorem popAt_nonempty (ls : List (List Event)) :
    ∀ (i : Nat) (e : Event) (tail : List Event), ls.get? i = some (e :: tail) →
    (∀ l ∈ ls, l ≠ []) → ∀ l ∈ popAt i ls, l ≠ [] := by
  induction ls with
  | nil => intro i e tail h; cases h
  | cons l rest ih =>
    intro i e tail h hne
    cases i with
    | zero =>
      have hl : l = e :: tail := Option.some_injective _ h
      subst hl
      cases tail with
      | nil =>
        show ∀ l ∈ popAt 0 ([e] :: rest), l ≠ []
        intro l hl
        exact hne l (List.mem_cons_of_mem _ hl)
      | cons y ys =>
        show ∀ l ∈ (y :: ys) :: rest, l ≠ []
        intro l hl
        rcases List.mem_cons.mp hl with rfl | hl
        · exact List.cons_ne_nil y ys
        · exact hne l (List.mem_cons_of_mem _ hl)
    | succ i1 =>
      intro l2 hl2
      rcases List.mem_cons.mp hl2 with rfl | hl2
      · exact hne l2 (List.mem_cons_self l2 rest)
      · exact ih i1 e tail h (fun x hx => hne x (List.mem_cons_of_mem _ hx)) l2 hl2

theorem popAt_sublist (ls : List (List Event)) :
    ∀ (i : Nat), ∀ l ∈ popAt i ls, ∃ l0 ∈ ls, l.Sublist l0 := by
  induction ls with
  | nil =>
    intro i l hl
    have hnil : popAt i ([] : List (List Event)) = [] := by cases i <;> rfl
    rw [hnil] at hl
    cases hl
  | cons l1 rest ih =>
    intro i l hl
    cases i with
    | zero =>
      cases l1 with
      | nil =>
        have hp : popAt 0 (([] : List Event) :: rest) = [] :: rest := rfl
        rw [hp] at hl
        exact ⟨l, hl, List.Sublist.refl l⟩
      | cons x xs =>
        cases xs with
        | nil =>
          have hp : popAt 0 ([x] :: rest) = rest := rfl
          rw [hp] at hl
          exact ⟨l, List.mem_cons_of_mem _ hl, List.Sublist.refl l⟩
        | cons y ys =>
          have hp : popAt 0 ((x :: y :: ys) :: rest) = (y :: ys) :: rest := rfl
          rw [hp] at hl
          rcases List.mem_cons.mp hl with heq | hl2
          · rw [heq]
            exact ⟨x :: y :: ys, List.mem_cons_self _ _,
              (List.Sublist.refl (y :: ys)).cons x⟩
          · exact ⟨l, List.mem_cons_of_mem _ hl2, List.Sublist.refl l⟩
    | succ i1 =>
      have hp : popAt (i1 + 1) (l1 :: rest) = l1 :: popAt i1 rest := rfl
      rw [hp] at hl
      rcases List.mem_cons.mp hl with heq | hl2
      · rw [heq]
        exact ⟨l1, List.mem_cons_self _ _, List.Sublist.refl l1⟩
      · obtain ⟨l0, hl0, hsub⟩ := ih i1 l hl2
        exact ⟨l0, List.mem_cons_of_mem _ hl0, hsub⟩

theorem sorted_head_le (h : Event) (t : List Event) (hs : sortedTs (h :: t)) :
    ∀ x ∈ h :: t, h.ts ≤ x.ts := by
  intro x hx
  rcases List.mem_cons.mp hx with rfl | hx
  · exact le_refl _
  · exact (List.pairwise_cons.mp hs).1 x hx

theorem mergeLoop_spec (fuel : Nat) :
    ∀ (ls : List (List Event)), totalLen ls ≤ fuel → (∀ l ∈ ls, l ≠ []) →
    ∃ r, mergeLoop fuel ls = some r ∧
      r.length = totalLen ls ∧
      (∀ x ∈ r, ∃ l0 ∈ ls, x ∈ l0) ∧
      ((∀ l ∈ ls, sortedTs l) → sortedTs r) := by
  induction fuel with
  | zero =>
    intro ls hfuel hne
    cases ls with
    | nil =>
      refine ⟨[], rfl, rfl, ?_, fun _ => List.Pairwise.nil⟩
      intro x hx
      cases hx
    | cons l rest =>
      have hl : l ≠ [] := hne l (List.mem_cons_self l rest)
      have : 0 < l.length := List.length_pos.mpr hl
      rw [totalLen_cons] at hfuel
      omega
  | succ fuel ih =>
    intro ls hfuel hne
    cases ls with
    | nil =>
      refine ⟨[], rfl, rfl, ?_, fun _ => List.Pairwise.nil⟩
      intro x hx
      cases hx
    | cons l rest =>
      obtain ⟨⟨i, e⟩, hsel⟩ := select_total (l :: rest) (List.cons_ne_nil l rest) hne
      obtain ⟨⟨tail, hget⟩, hmin, _⟩ := select_spec (l :: rest) i e hsel
      have hlen := popAt_totalLen (l :: rest) i e tail hget
      have hpne := popAt_nonempty (l :: rest) i e tail hget hne
      obtain ⟨r, hr, hrlen, hrmem, hrsort⟩ := ih (popAt i (l :: rest)) (by omega) hpne
      refine ⟨e :: r, ?_, ?_, ?_, ?_⟩
      · show (match select (l :: rest) with
          | none => none
          | some p => (mergeLoop fuel (popAt p.1 (l :: rest))).map (p.2 :: ·)) =
          some (e :: r)
        rw [hsel]
        show (mergeLoop fuel (popAt i (l :: rest))).map (e :: ·) = some (e :: r)
        rw [hr]
        rfl
      · rw [List.length_cons, hrlen]
        omega
      · intro x hx
        rcases List.mem_cons.mp hx with heq | hx
        · rw [heq]
          exact ⟨e :: tail, List.get?_mem hget, List.mem_cons_self _ _⟩
        · obtain ⟨l0, hl0, hx0⟩ := hrmem x hx
          obtain ⟨l1, hl1, hsub⟩ := popAt_sublist (l :: rest) i l0 hl0
          exact ⟨l1, hl1, hsub.subset hx0⟩
      · intro hsorted
        have hpop_sorted : ∀ l2 ∈ popAt i (l :: rest), sortedTs l2 := by
          intro l2 hl2
          obtain ⟨l1, hl1, hsub⟩ := popAt_sublist (l :: rest) i l2 hl2
          exact (hsorted l1 hl1).sublist hsub
        refine List.pairwise_cons.mpr ⟨?_, hrsort hpop_sorted⟩
        intro x hx
        obtain ⟨l0, hl0, hx0⟩ := hrmem x hx
        obtain ⟨l1, hl1, hsub⟩ := popAt_sublist (l :: rest) i l0 hl0
        have hx1 : x ∈ l1 := hsub.subset hx0
        obtain ⟨j, hj⟩ := List.get?_of_mem hl1
        cases l1 with
        | nil => cases hx1
        | cons h1 t1 =>
          have hminj : e.ts ≤ h1.ts := hmin j h1 t1 hj
          have hhead : h1.ts ≤ x.ts := sorted_head_le h1 t1 (hsorted _ hl1) x hx1
          omega

theorem totalLen_dropEmpties (ls : List (List Event)) :
    totalLen (dropEmpties ls) = totalLen ls := by
  induction ls with
  | nil => rfl
  | cons l t ih =>
    cases l with
    | nil => simpa [dropEmpties, List.filter_cons, totalLen_cons] using ih
    | cons x xs =>
      simp only [dropEmpties, List.filter_cons] at ih ⊢
      simpa [totalLen_cons] using ih

theorem dropEmpties_nonempty (ls : List (List Event)) :
    ∀ l ∈ dropEmpties ls, l ≠ [] := by
  intro l hl
  have hp := (List.mem_filter.mp hl).2
  cases l with
  | nil => simp at hp
  | cons x xs => exact List.cons_ne_nil x xs

theorem dropEmpties_subset (ls : List (List Event)) :
    ∀ l ∈ dropEmpties ls, l ∈ ls :=
  fun l hl => (List.mem_filter.mp hl).1

theorem dropEmpties_idem (ls : List (List Event)) :
    dropEmpties (dropEmpties ls) = dropEmpties ls :=
  List.filter_eq_self.mpr (fun l hl => (List.mem_filter.mp hl).2)

/-- C3: for every call of `merge` on pre-sorted input lists: the result exists
(no panic), has length equal to the sum of the input lengths, and is
non-decreasing in timestamp; empty input lists are skipped (`merge` is
unchanged by dropping them); at each step the selection picks a head of
lowest timestamp among the lists, ties broken in favour of the earlier list
(every strictly earlier list's head is strictly later); and each loop
iteration emits exactly the selected head and pops it. -/
theorem merge_totality_order_stability (ls : List (List Event))
    (hs : ∀ l ∈ ls, sortedTs l) :
    (∃ r, merge ls = some r ∧ r.length = totalLen ls ∧ sortedTs r) ∧
    merge ls = merge (dropEmpties ls) ∧
    (∀ (ks : List (List Event)) (i : Nat) (e : Event), select ks = some (i, e) →
      (∃ tail, ks.get? i = some (e :: tail)) ∧
      (∀ j x xs, ks.get? j = some (x :: xs) → e.ts ≤ x.ts) ∧
      (∀ j x xs, ks.get? j = some (x :: xs) → j < i → e.ts < x.ts)) ∧
    (∀ (fuel : Nat) (ks : List (List Event)) (i : Nat) (e : Event),
      select ks = some (i, e) →
      mergeLoop (fuel + 1) ks = (mergeLoop fuel (popAt i ks)).map (e :: ·)) := by
  refine ⟨?_, ?_, fun ks i e h => select_spec ks i e h, ?_⟩
  · cases ls with
    | nil => exact ⟨[], rfl, rfl, List.Pairwise.nil⟩
    | cons l rest =>
      have hmerge : merge (l :: rest) =
          mergeLoop (totalLen (dropEmpties (l :: rest))) (dropEmpties (l :: rest)) := rfl
      obtain ⟨r, hr, hlen, _, hsort⟩ :=
        mergeLoop_spec (totalLen (dropEmpties (l :: rest))) (dropEmpties (l :: rest))
          (le_refl _) (dropEmpties_nonempty (l :: rest))
      refine ⟨r, by rw [hmerge]; exact hr, ?_, ?_⟩
      · rw [hlen, totalLen_dropEmpties]
      · exact hsort (fun l2 hl2 => hs l2 (dropEmpties_subset (l :: rest) l2 hl2))
  · cases ls with
    | nil => rfl
    | cons l rest =>
      have h1 : merge (l :: rest) =
          mergeLoop (totalLen (dropEmpties (l :: rest))) (dropEmpties (l :: rest)) := rfl
      rw [h1]
      cases hd : dropEmpties (l :: rest) with
      | nil => rfl
      | cons d ds =>
        have h2 : merge (d :: ds) =
            mergeLoop (totalLen (dropEmpties (d :: ds))) (dropEmpties (d :: ds)) := rfl
        rw [h2, ← hd, dropEmpties_idem]
  · intro fuel ks i e h
    cases ks with
    | nil => cases h
    | cons l rest =>
      show (match select (l :: rest) with
        | none => none
        | some p => (mergeLoop fuel (popAt p.1 (l :: rest))).map (p.2 :: ·)) = _
      rw [h]

/-- Witness events for C3, including an equal-timestamp pair for the
stability check. -/
def mergeEvA : Event := { name := "a", ts := 1 }

/-- Witness event with timestamp 2. -/
def mergeEvB : Event := { name := "b", ts := 2 }

/-- Witness event with timestamp 3. -/
def mergeEvC : Event := { name := "c", ts := 3 }

/-- Tie witness in the earlier input list. -/
def mergeEvT1 : Event := { name := "t1", ts := 5 }

/-- Tie witness in the later input list. -/
def mergeEvT2 : Event := { name := "t2", ts := 5 }

/-- C3 witness: the theorem applied to concrete sorted inputs with an empty
list, plus decided concrete merges showing the interleaving and the
equal-timestamp tie resolving to the earlier list. -/
theorem merge_totality_order_stability_witness :
    (∀ l ∈ [[mergeEvA, mergeEvC], [mergeEvB], []], sortedTs l) ∧
    (∃ r, merge [[mergeEvA, mergeEvC], [mergeEvB], []] = some r ∧
      r.length = totalLen [[mergeEvA, mergeEvC], [mergeEvB], []] ∧ sortedTs r) ∧
    merge [[mergeEvA, mergeEvC], [mergeEvB], []] =
      merge (dropEmpties [[mergeEvA, mergeEvC], [mergeEvB], []]) ∧
    merge [[mergeEvA, mergeEvC], [mergeEvB], []] =
      some [mergeEvA, mergeEvB, mergeEvC] ∧
    merge [[mergeEvT1], [mergeEvT2]] = some [mergeEvT1, mergeEvT2] := by
  have h := merge_totality_order_stability [[mergeEvA, mergeEvC], [mergeEvB], []]
    (by decide)
  exact ⟨by decide, h.1, h.2.1, by decide, by decide⟩

end StracePerfetto
